import Mathlib

/-!
# Verification of the katcha seeding engine

A shallow embedding of the constraint-aware synthetic row generation and
insertion-ordering engine of the katcha CLI (files `cli/commands/seed.py`
and `cli/commands/schema.py`), together with proofs about the claims
of its specification.

Modelling conventions:
* Python values flowing through the engine are a single inductive `Value`
  (strings, ints, floats-as-rationals, booleans, dates/datetimes/times as
  abstract counters, and `None`).
* The faker library and the `random` module helpers are external
  collaborators; they are modelled as a structure `Faker` of arbitrary
  functions, each consuming one drawn natural number from an injected
  random stream (`List Nat`).
* `random.random()` is modelled as drawing `r : Nat` and producing the
  rational `(r % 2^53) / 2^53`, matching CPython's uniform multiples of
  `2^-53` on `[0, 1)`.
* Python sets and dicts are modelled as lists with no-duplicate insertion
  and assoc-list update, preserving membership and cardinality semantics.
-/

/-- A Python scalar value as it flows through the seeding engine. -/
inductive Value where
  | vnone
  | vint (n : Int)
  | vfloat (q : Rat)
  | vstr (s : String)
  | vbool (b : Bool)
  | vdate (n : Nat)
  | vdatetime (n : Nat)
  | vtime (n : Nat)
deriving DecidableEq, Repr

/-- Python `str()` rendering of a value, used by the f-string
`f"{base}_{len(...)}"` in the unique-value fallback.  The rendering of
non-string scalars is modelled (exact float formatting is irrelevant to
the claims). -/
def pyStr : Value → String
  | .vnone => "None"
  | .vint n => toString n
  | .vfloat q => toString q
  | .vstr s => s
  | .vbool b => if b then "True" else "False"
  | .vdate n => "d" ++ toString n
  | .vdatetime n => "dt" ++ toString n
  | .vtime n => "t" ++ toString n

/-- Does `needle` occur at the head of `hay`? -/
def charsStartWith : List Char → List Char → Bool
  | [], _ => true
  | _ :: _, [] => false
  | c :: cs, h :: hs => c = h && charsStartWith cs hs

/-- Does `needle` occur contiguously anywhere in `hay`? -/
def charsInfix (needle : List Char) : List Char → Bool
  | [] => needle.isEmpty
  | h :: hs => charsStartWith needle (h :: hs) || charsInfix needle hs

/-- Python `needle in hay` substring test. -/
def strIn (needle hay : String) : Bool := charsInfix needle.data hay.data

/-- Python `s.endswith(post)`. -/
def strEndsWith (s post : String) : Bool :=
  charsStartWith post.data.reverse s.data.reverse

/-- Python `round(x, 2)`. -/
def round2 (q : Rat) : Rat := (round (q * 100) : Int) / 100

/-- CPython `random.random()`: uniform multiples of `2^-53` in `[0,1)`,
from one drawn natural number. -/
def randomFloat (r : Nat) : Rat := ((r % 2 ^ 53 : Nat) : Rat) / 2 ^ 53

/-- The exact SQLAlchemy type class of a column (`type(column_type)`),
as used by the type-fallback rules; `other` covers every class the code
does not test for. -/
inductive TypeClass where
  | integer
  | smallInteger
  | bigInteger
  | float
  | numeric
  | boolean
  | date
  | dateTime
  | time
  | text
  | string
  | other
deriving DecidableEq, Repr

/-- A column type descriptor: its class, its `str()` rendering, and its
declared length attribute (for character types). -/
structure ColType where
  cls : TypeClass
  tyStr : String
  length : Option Nat
deriving DecidableEq, Repr

/-- The faker library plus `random`-module helpers, as an injected
external collaborator.  Each field consumes one natural number drawn
from the random stream and is otherwise arbitrary. -/
structure Faker where
  email : Nat → String
  phone_number : Nat → String
  first_name : Nat → String
  last_name : Nat → String
  name : Nat → String
  address : Nat → String
  city : Nat → String
  state : Nat → String
  country : Nat → String
  postcode : Nat → String
  url : Nat → String
  ipv4 : Nat → String
  paragraph : Nat → String
  sentence : Nat → Nat → String
  company : Nat → String
  uuid4 : Nat → String
  sha256 : Nat → String
  sha1 : Nat → String
  slug : Nat → String
  hex_color : Nat → String
  domain_name : Nat → String
  date_time : Nat → Nat
  pyfloat : Int → Int → Nat → Rat
  uniform : Rat → Rat → Nat → Rat
  random_int : Int → Int → Nat → Int
  hexify : String → Nat → String
  choice : List String → Nat → String
  word : Nat → String
  boolean : Nat → Bool
  date_object : Nat → Nat
  time_object : Nat → Nat
  text : Nat → Nat → String
  bothify : String → Nat → String

/-- ASCII upper-casing of a character (column names and SQL type
strings are ASCII; Python `str.upper()` restricted accordingly). -/
def upChar (c : Char) : Char :=
  if 'a' ≤ c ∧ c ≤ 'z' then Char.ofNat (c.toNat - 32) else c

/-- ASCII lower-casing of a character (Python `str.lower()`). -/
def lowChar (c : Char) : Char :=
  if 'A' ≤ c ∧ c ≤ 'Z' then Char.ofNat (c.toNat + 32) else c

/-- Python `s.upper()` (ASCII). -/
def strUpper (s : String) : String := ⟨s.data.map upChar⟩

/-- Python `s.lower()` (ASCII). -/
def strLower (s : String) : String := ⟨s.data.map lowChar⟩

/-- The ordered name-pattern rules of `get_faker_value` (seed.py lines
34-111), applied to the lowercased column name; `none` when no name rule
matches. -/
def nameRuleValue (f : Faker) (nl : String) (r : Nat) : Option Value :=
  if strIn "email" nl then some (.vstr (f.email r))
  else if strIn "phone" nl || strIn "mobile" nl || strIn "tel" nl then
    some (.vstr ((f.phone_number r).take 20))
  else if nl = "first_name" || nl = "firstname" || nl = "fname" then
    some (.vstr (f.first_name r))
  else if nl = "last_name" || nl = "lastname" || nl = "lname" || nl = "surname" then
    some (.vstr (f.last_name r))
  else if nl = "name" || nl = "full_name" || nl = "fullname" || nl = "username" then
    some (.vstr (f.name r))
  else if strIn "address" nl then some (.vstr ((f.address r).replace "\n" ", "))
  else if strIn "city" nl then some (.vstr (f.city r))
  else if strIn "state" nl || strIn "province" nl then some (.vstr (f.state r))
  else if strIn "country" nl then some (.vstr (f.country r))
  else if strIn "zip" nl || strIn "postal" nl then some (.vstr (f.postcode r))
  else if strIn "url" nl || strIn "website" nl || strIn "link" nl then
    some (.vstr (f.url r))
  else if strIn "ip" nl && strIn "address" nl then some (.vstr (f.ipv4 r))
  else if nl = "ip" || strEndsWith nl "_ip" then some (.vstr (f.ipv4 r))
  else if strIn "description" nl || strIn "desc" nl then some (.vstr (f.paragraph r))
  else if strIn "title" nl then
    some (.vstr ((f.sentence 4 r).dropRightWhile (· = '.')))
  else if strIn "company" nl || strIn "organization" nl then some (.vstr (f.company r))
  else if strIn "uuid" nl || strIn "guid" nl then some (.vstr (f.uuid4 r))
  else if strIn "password" nl || strIn "hash" nl then some (.vstr (f.sha256 r))
  else if strIn "token" nl || strIn "secret" nl then some (.vstr (f.sha1 r))
  else if strIn "slug" nl then some (.vstr (f.slug r))
  else if strIn "color" nl || strIn "colour" nl then some (.vstr (f.hex_color r))
  else if strIn "domain" nl then some (.vstr (f.domain_name r))
  else if strIn "created_at" nl || strIn "updated_at" nl || strIn "last_login" nl then
    some (.vdatetime (f.date_time r))
  else if strEndsWith nl "_on" || strEndsWith nl "_at" then some (.vdatetime (f.date_time r))
  else if strIn "score" nl || strIn "rating" nl then
    some (.vfloat (round2 (f.pyfloat 0 100 r)))
  else if strIn "discount" nl then some (.vfloat (round2 (f.uniform 0 (1/2) r)))
  else if strIn "quantity" nl then some (.vint (f.random_int 1 100 r))
  else if strIn "price" nl || strIn "cost" nl || strIn "amount" nl then
    some (.vfloat (round2 (f.pyfloat 1 1000 r)))
  else if strIn "count" nl then some (.vint (f.random_int 0 1000 r))
  else if strIn "version" nl then some (.vint (f.random_int 1 10 r))
  else if strIn "serial" nl then some (.vstr (f.hexify "^^^^^^^^^^^^^^^^" r))
  else if strIn "subject" nl || strIn "issuer" nl then some (.vstr (f.company r))
  else if strIn "algorithm" nl then
    some (.vstr (f.choice ["RSA", "ECDSA", "SHA256", "SHA384", "SHA512"] r))
  else if strIn "public_key" nl || strIn "key" nl then some (.vstr (f.sha256 r))
  else if strIn "status" nl then
    some (.vstr (f.choice ["active", "inactive", "pending", "completed"] r))
  else if strIn "role" nl then
    some (.vstr (f.choice ["admin", "user", "guest", "moderator"] r))
  else if strIn "type" nl then some (.vstr (f.word r))
  else if strEndsWith nl "id" && !strIn "uuid" nl then
    some (.vstr (strUpper (f.bothify "???##" r)))
  else none

/-- The type-category fallback rules of `get_faker_value` (seed.py lines
113-145), including the generic `fake.word()` default. -/
def typeRuleValue (f : Faker) (ty : ColType) (r : Nat) : Value :=
  let ts := strUpper ty.tyStr
  if strIn "UUID" ts then .vstr (f.uuid4 r)
  else if ty.cls = .integer || ty.cls = .smallInteger || ty.cls = .bigInteger
      || strIn "INT" ts then
    .vint (f.random_int 1 10000 r)
  else if ty.cls = .float || ty.cls = .numeric || strIn "FLOAT" ts
      || strIn "NUMERIC" ts || strIn "DECIMAL" ts || strIn "REAL" ts then
    .vfloat (round2 (f.pyfloat 0 10000 r))
  else if ty.cls = .boolean || strIn "BOOL" ts then .vbool (f.boolean r)
  else if ty.cls = .date || ts = "DATE" then .vdate (f.date_object r)
  else if ty.cls = .dateTime || strIn "DATETIME" ts || strIn "TIMESTAMP" ts then
    .vdatetime (f.date_time r)
  else if ty.cls = .time || ts = "TIME" then .vtime (f.time_object r)
  else if strIn "JSON" ts then .vnone
  else if ty.cls = .text || strIn "TEXT" ts then .vstr (f.paragraph r)
  else if ty.cls = .string || strIn "VARCHAR" ts || strIn "CHAR" ts then
    let length := match ty.length with
      | some l => if l = 0 then 255 else l
      | none => 255
    if length = 36 then .vstr (f.uuid4 r)
    else .vstr ((f.text (min length 200) r).take length)
  else .vstr (f.word r)

/-- The full rule lookup of `get_faker_value` after the null gate:
name-pattern rules first, then the type-category fallback. -/
def fakerRuleValue (f : Faker) (column_name : String) (ty : ColType) (r : Nat) : Value :=
  match nameRuleValue f (strLower column_name) r with
  | some v => v
  | none => typeRuleValue f ty r

/-- Embedding of `get_faker_value(column_name, column_type, nullable)`
(seed.py lines 27-145).  Takes the random stream and returns the value
together with the unconsumed remainder of the stream.  The null gate
`nullable and random.random() < 0.1` consumes a draw only when
`nullable` is true (Python short-circuit evaluation); exactly one
further draw feeds whichever single faker rule fires. -/
def get_faker_value (f : Faker) (column_name : String) (ty : ColType)
    (nullable : Bool) (rng : List Nat) : Value × List Nat :=
  if nullable then
    if randomFloat (rng.headD 0) < 1/10 then (.vnone, rng.tail)
    else (fakerRuleValue f column_name ty (rng.tail.headD 0), rng.tail.tail)
  else (fakerRuleValue f column_name ty (rng.headD 0), rng.tail)

/-! ## Schema metadata and the dependency orderer (`schema.py`) -/

/-- One raw foreign-key pair reported by the schema inspector:
a constrained local column, the referred table, the referred column. -/
structure RawFK where
  col : String
  refTable : String
  refCol : String
deriving DecidableEq, Repr

/-- A column descriptor as returned by `inspector.get_columns`. -/
structure Column where
  name : String
  type : ColType
  nullable : Bool
deriving DecidableEq, Repr

/-- A table as seen through the read-only schema metadata provider. -/
structure TableInfo where
  name : String
  columns : List Column
  raw_fks : List RawFK
  primary_keys : List String
  unique_columns : List String
deriving DecidableEq, Repr

/-- Python dict assignment `d[k] = v` on an assoc list. -/
def setA {α : Type} (k : String) (v : α) : List (String × α) → List (String × α)
  | [] => [(k, v)]
  | (k', v') :: rest => if k' = k then (k, v) :: rest else (k', v') :: setA k v rest

/-- Python `set.add` on a list-modelled set (no-op when already present). -/
def insertSet {α : Type} [DecidableEq α] (v : α) (l : List α) : List α :=
  if v ∈ l then l else v :: l

/-- Embedding of `get_foreign_keys` (seed.py lines 151-165): splits the
inspector's foreign keys of a table into the regular map and the
self-referential map, each `local_column -> (referred_table,
referred_column)` with dict-overwrite semantics. -/
def get_foreign_keys (ti : TableInfo) :
    List (String × String × String) × List (String × String × String) :=
  ti.raw_fks.foldl
    (fun acc fk =>
      if fk.refTable = ti.name then (acc.1, setA fk.col (fk.refTable, fk.refCol) acc.2)
      else (setA fk.col (fk.refTable, fk.refCol) acc.1, acc.2))
    ([], [])

/-- Embedding of `build_dependency_graph` (schema.py lines 39-55): every
table is a node, and its dependency set collects the referred tables of
its foreign keys, skipping self-references and falsy referred names. -/
def build_dependency_graph (tables : List TableInfo) : List (String × List String) :=
  tables.map (fun t =>
    (t.name,
     t.raw_fks.foldl
       (fun acc fk =>
         if fk.refTable ≠ "" ∧ fk.refTable ≠ t.name then insertSet fk.refTable acc else acc)
       []))

/-- All nodes of a dependency graph: its keys plus every name appearing
in a dependency set (graphlib adds the latter implicitly), deduplicated. -/
def graphNodes (g : List (String × List String)) : List String :=
  (g.map (·.1) ++ (g.map (·.2)).flatten).foldl (fun acc n => insertSet n acc) []

/-- The dependency set of a node. -/
def depsOf (g : List (String × List String)) (n : String) : List String :=
  (g.lookup n).getD []

/-- Nodes not yet emitted whose dependencies have all been emitted. -/
def readyNodes (g : List (String × List String)) (done : List String) : List String :=
  (graphNodes g).filter (fun n => n ∉ done ∧ ∀ d ∈ depsOf g n, d ∈ done)

/-- Fuelled Kahn-style worklist modelling
`graphlib.TopologicalSorter.static_order`: repeatedly emit all ready
nodes; report failure (graphlib's `CycleError`) when no progress is
possible. -/
def topoAux (g : List (String × List String)) : Nat → List String → Option (List String)
  | 0, acc => if ∀ n ∈ graphNodes g, n ∈ acc then some acc else none
  | fuel + 1, acc =>
    if ∀ n ∈ graphNodes g, n ∈ acc then some acc
    else
      let r := readyNodes g acc
      if r.isEmpty then none else topoAux g fuel (acc ++ r)

/-- Embedding of `topological_sort` (schema.py lines 58-65): `none`
models the `CycleError` raised by graphlib on a cyclic graph. -/
def topological_sort (g : List (String × List String)) : Option (List String) :=
  topoAux g (graphNodes g).length []

/-! ## The seeding engine state machine (`seed.py`, `seed` command) -/

/-- An observable action issued against the database connection.
`rollback` is part of the connection interface but is never emitted by
the seeding code. -/
inductive Effect where
  | insert (table : String) (row : List (String × Value))
  | update (table : String) (col : String) (pkcol : String) (refVal pkVal : Value)
  | commit
  | rollback
deriving DecidableEq, Repr

/-- The execution interface: the store-assigned row id for the n-th
executed statement, and whether the n-th execution raises. -/
structure Store where
  lastrowid : Nat → Int
  fails : Nat → Bool

/-- A fatal error of the run. -/
inductive SeedError where
  | cyclic
  | storeExec
deriving DecidableEq, Repr

/-- The full state of the seeding run: the injected random stream, the
statement counter, the trace of performed effects, the cross-table
`inserted_pks`, the per-table constraint-tracking state, the per-table
summaries `(table, inserted, requested)`, and the fatal-error flag. -/
structure St where
  rng : List Nat
  execCount : Nat
  effects : List Effect
  inserted_pks : List (String × List Value)
  used_unique_values : List (String × List Value)
  used_pk_combinations : List (List Value)
  available_fk_pks : List (String × List Value)
  summaries : List (String × Nat × Int)
  error : Option SeedError

/-- Draw one natural number from the random stream. -/
def drawNat (st : St) : Nat × St := (st.rng.headD 0, { st with rng := st.rng.tail })

/-- Execute one parameterized statement: on failure the error flag is
set and the effect is not performed; otherwise it is appended to the
trace.  Either way the statement counter advances. -/
def execStmt (store : Store) (e : Effect) (st : St) : St :=
  if store.fails st.execCount then
    { st with execCount := st.execCount + 1, error := some .storeExec }
  else
    { st with execCount := st.execCount + 1, effects := st.effects ++ [e] }

/-- Append a `commit` to the trace (`conn.commit()`). -/
def commitEff (st : St) : St := { st with effects := st.effects ++ [.commit] }

/-- Record a committed primary-key value for a table. -/
def appendPk (t : String) (v : Value) (st : St) : St :=
  { st with inserted_pks := setA t (((st.inserted_pks.lookup t).getD []) ++ [v]) st.inserted_pks }

/-- Embedding of the unique-value retry loop (seed.py lines 309-319):
up to `fuel` (100 in the source) synthesizer calls with
`nullable=False` looking for a value outside `used`; when exhausted,
one more base value with a count-derived suffix.  Returns the chosen
value, the updated used-set and the remaining stream. -/
def genUniqueValue (f : Faker) (name : String) (ty : ColType) (used : List Value) :
    Nat → List Nat → Value × List Value × List Nat
  | 0, rng =>
    let (base, rng') := get_faker_value f name ty false rng
    let value := Value.vstr (pyStr base ++ "_" ++ toString used.length)
    (value, insertSet value used, rng')
  | n + 1, rng =>
    let (v, rng') := get_faker_value f name ty false rng
    if v ∈ used then genUniqueValue f name ty used n rng'
    else (v, insertSet v used, rng')

/-- Is the column part of a composite primary key (seed.py line 235)? -/
def isComposite (ti : TableInfo) : Bool := ti.primary_keys.length > 1

/-- Embedding of the per-column value assignment (seed.py lines
274-321).  `none` in the first component models the bare `break` that
abandons the row when a non-nullable unique foreign-key pool is
exhausted. -/
def genColValue (f : Faker) (ti : TableInfo) (col : Column) (st : St) : Option Value × St :=
  let fks := get_foreign_keys ti
  let col_name := col.name
  let is_pk_col := col_name ∈ ti.primary_keys
  let nullable := col.nullable && !is_pk_col
  if (fks.2.lookup col_name).isSome then (some .vnone, st)
  else
    match fks.1.lookup col_name with
    | some (ref_table, _) =>
      if col_name ∈ ti.unique_columns ∧ col_name ∉ ti.primary_keys then
        match st.available_fk_pks.lookup col_name with
        | some (v :: rest) =>
          (some v, { st with available_fk_pks := setA col_name rest st.available_fk_pks })
        | some [] => if nullable then (some .vnone, st) else (none, st)
        | none => if nullable then (some .vnone, st) else (none, st)
      else
        match st.inserted_pks.lookup ref_table with
        | some (v :: vs) =>
          (some ((v :: vs).getD (st.rng.headD 0 % (v :: vs).length) .vnone),
           { st with rng := st.rng.tail })
        | some [] => if nullable then (some .vnone, st) else (some (.vint 1), st)
        | none => if nullable then (some .vnone, st) else (some (.vint 1), st)
    | none =>
      if col_name ∈ ti.unique_columns ∨ is_pk_col then
        let used := (st.used_unique_values.lookup col_name).getD []
        let res := genUniqueValue f col_name col.type used 100 st.rng
        (some res.1,
         { st with used_unique_values := setA col_name res.2.1 st.used_unique_values,
                   rng := res.2.2 })
      else
        (some (get_faker_value f col_name col.type nullable st.rng).1,
         { st with rng := (get_faker_value f col_name col.type nullable st.rng).2 })

/-- Assemble one row attempt over the insertable columns (the inner
`for col in insertable_columns` loop); stops at the first abandoned
column, leaving the row partial. -/
def buildRow (f : Faker) (ti : TableInfo) :
    List Column → List (String × Value) → St → List (String × Value) × St
  | [], row, st => (row, st)
  | col :: rest, row, st =>
    match genColValue f ti col st with
    | (some v, st') => buildRow f ti rest (setA col.name v row) st'
    | (none, st') => (row, st')

/-- Python `sorted(primary_keys)` (insertion sort, ascending). -/
def insertSorted (s : String) : List String → List String
  | [] => [s]
  | x :: xs => if s ≤ x then s :: x :: xs else x :: insertSorted s xs

/-- Sort a list of column names ascending. -/
def sortStr (l : List String) : List String := l.foldr insertSorted []

/-- The composite-primary-key tuple of a row, over the sorted
primary-key columns (seed.py line 325); a missing column yields `None`. -/
def pkCombo (ti : TableInfo) (row : List (String × Value)) : List Value :=
  (sortStr ti.primary_keys).map (fun pk => (row.lookup pk).getD .vnone)

/-- Embedding of the bounded row-attempt loop (seed.py lines 271-332):
for composite-primary-key tables up to `fuel` (100) attempts to find an
unused key combination; otherwise a single attempt.  Returns `[]` when
every attempt collided (the row is later skipped). -/
def genRowAttempts (f : Faker) (ti : TableInfo) (insertable : List Column) :
    Nat → St → List (String × Value) × St
  | 0, st => ([], st)
  | n + 1, st =>
    let (row, st') := buildRow f ti insertable [] st
    if isComposite ti ∧ row ≠ [] then
      let combo := pkCombo ti row
      if combo ∈ st'.used_pk_combinations then genRowAttempts f ti insertable n st'
      else (row, { st' with used_pk_combinations := combo :: st'.used_pk_combinations })
    else (row, st')

/-- Process one requested row (seed.py lines 265-358): generate it,
skip it when incomplete, otherwise insert it and record its effective
primary-key value. -/
def processOneRow (f : Faker) (store : Store) (ti : TableInfo)
    (insertable : List Column) (maxAtt : Nat) (st : St) : St :=
  if st.error.isSome then st
  else
    let (row, st1) := genRowAttempts f ti insertable maxAtt st
    if row = [] ∨ row.length < insertable.length then st1
    else
      let execIdx := st1.execCount
      let st2 := execStmt store (.insert ti.name row) st1
      if st2.error.isSome then st2
      else if ti.primary_keys.length = 1 then
        let pk_col := ti.primary_keys.headD ""
        match row.lookup pk_col with
        | some v => appendPk ti.name v st2
        | none =>
          let rid := store.lastrowid execIdx
          if rid ≠ 0 then appendPk ti.name (.vint rid) st2 else st2
      else appendPk ti.name (.vbool true) st2

/-- The `for _ in range(row_count)` loop. -/
def processRows (f : Faker) (store : Store) (ti : TableInfo)
    (insertable : List Column) (maxAtt : Nat) : Nat → St → St
  | 0, st => st
  | n + 1, st => processRows f store ti insertable maxAtt n (processOneRow f store ti insertable maxAtt st)

/-- Python `random.sample(l, k)` (k ≤ len l): pick without replacement,
one stream draw per pick. -/
def sampleK : List Value → Nat → List Nat → List Value × List Nat
  | _, 0, rng => ([], rng)
  | [], _ + 1, rng => ([], rng)
  | l, k + 1, rng =>
    let r := rng.headD 0
    let i := r % l.length
    let picked := l.getD i .vnone
    let (rest, rng') := sampleK (l.eraseIdx i) k rng.tail
    (picked :: rest, rng')

/-- The inner update loop of the self-reference resolver (seed.py lines
377-386): for each sampled key, pick a different key and issue an
update; a key with no distinct candidate is silently skipped. -/
def updateRows (store : Store) (tname scol pkc : String) (pks : List Value) :
    List Value → St → St
  | [], st => st
  | pkv :: rest, st =>
    if st.error.isSome then st
    else
      let other := pks.filter (fun p => p ≠ pkv)
      if other.length ≠ 0 then
        let (r, st1) := drawNat st
        let refv := other.getD (r % other.length) .vnone
        updateRows store tname scol pkc pks rest
          (execStmt store (.update tname scol pkc refv pkv) st1)
      else updateRows store tname scol pkc pks rest st

/-- Resolve one self-referential column (seed.py lines 374-386): sample
`min(len(pks) // 2, len(pks))` keys without replacement and update each. -/
def processSelfCol (store : Store) (ti : TableInfo) (pkc : String)
    (pks : List Value) (scol : String) (st : St) : St :=
  if st.error.isSome then st
  else
    let k := min (pks.length / 2) pks.length
    let (rows_to_update, rng') := sampleK pks k st.rng
    updateRows store ti.name scol pkc pks rows_to_update { st with rng := rng' }

/-- The second pass for self-referential foreign keys (seed.py lines
362-387), followed by its own commit. -/
def selfRefPass (store : Store) (ti : TableInfo) (auto_pk : Option String) (st : St) : St :=
  if st.error.isSome then st
  else
    let selfRefs := (get_foreign_keys ti).2
    let pks := (st.inserted_pks.lookup ti.name).getD []
    if selfRefs ≠ [] ∧ pks ≠ [] then
      let pk_col_name : Option String :=
        match auto_pk with
        | some c => some c
        | none => if ti.primary_keys.length = 1 then some (ti.primary_keys.headD "") else none
      match pk_col_name with
      | some pkc =>
        let st1 := selfRefs.foldl (fun s scfk => processSelfCol store ti pkc pks scfk.1 s) st
        if st1.error.isSome then st1 else commitEff st1
      | none => st
    else st

/-- Split the columns into the insert payload and the skipped
auto-increment primary key (seed.py lines 238-247; the source uses
`isinstance` against the three SQLAlchemy integer classes). -/
def insertableAndAuto (ti : TableInfo) : List Column × Option String :=
  ti.columns.foldl
    (fun acc col =>
      let is_pk := col.name ∈ ti.primary_keys
      let is_int_type := col.type.cls = .integer ∨ col.type.cls = .smallInteger
        ∨ col.type.cls = .bigInteger
      if is_pk ∧ is_int_type ∧ ¬isComposite ti then (acc.1, some col.name)
      else (acc.1 ++ [col], acc.2))
    ([], none)

/-- Populate `available_fk_pks` for the unique foreign-key columns from
the already-seeded tables (seed.py lines 258-263). -/
def initPools (ti : TableInfo) (ips : List (String × List Value)) :
    List (String × List Value) :=
  (get_foreign_keys ti).1.foldl
    (fun acc p =>
      if p.1 ∈ ti.unique_columns then
        match ips.lookup p.2.1 with
        | some l => setA p.1 l acc
        | none => acc
      else acc)
    []

/-- Process one table of the seeding run (seed.py lines 224-393):
initialize the per-table tracking state, generate and insert the
requested rows, commit, run the self-reference pass, and record the
summary. -/
def processTable (f : Faker) (store : Store) (schema : List (String × Int))
    (ti : TableInfo) (st : St) : St :=
  if st.error.isSome then st
  else
    let row_count := (schema.lookup ti.name).getD 0
    if row_count ≤ 0 then st
    else
      let ia := insertableAndAuto ti
      let ips0 := setA ti.name [] st.inserted_pks
      let st0 : St :=
        { st with
          inserted_pks := ips0,
          used_unique_values := ti.unique_columns.map (fun c => (c, [])),
          used_pk_combinations := [],
          available_fk_pks := initPools ti ips0 }
      let maxAtt := if isComposite ti then 100 else 1
      let st1 := processRows f store ti ia.1 maxAtt row_count.toNat st0
      if st1.error.isSome then st1
      else
        let st2 := commitEff st1
        let st3 := selfRefPass store ti ia.2 st2
        if st3.error.isSome then st3
        else
          let actual := ((st3.inserted_pks.lookup ti.name).getD []).length
          { st3 with summaries := st3.summaries ++ [(ti.name, actual, row_count)] }

/-- The initial run state over a given random stream. -/
def initialSt (rng : List Nat) : St :=
  { rng := rng, execCount := 0, effects := [], inserted_pks := [],
    used_unique_values := [], used_pk_combinations := [], available_fk_pks := [],
    summaries := [], error := none }

/-- Process one name of the ordered table list: look its metadata up
and run `processTable` on it. -/
def seedStep (tables : List TableInfo) (f : Faker) (store : Store)
    (schema : List (String × Int)) (st : St) (tname : String) : St :=
  match tables.find? (fun ti => ti.name = tname) with
  | some ti => processTable f store schema ti st
  | none => st

/-- The whole `seed` command after configuration loading (seed.py lines
210-395): order the tables topologically (a cycle is fatal before any
database work), filter to the configured tables that exist, and process
each in order. -/
def runSeed (tables : List TableInfo) (schema : List (String × Int))
    (f : Faker) (store : Store) (rng : List Nat) : St :=
  match topological_sort (build_dependency_graph tables) with
  | none => { initialSt rng with error := some .cyclic }
  | some sorted =>
    let db_tables := tables.map (·.name)
    let tts := sorted.filter (fun t => (schema.lookup t).isSome && db_tables.contains t)
    tts.foldl (seedStep tables f store schema) (initialSt rng)

/-! ## Derived notions used by the verification -/

/-- The rows of the insert effects for a given table, in trace order. -/
def insertsOf (t : String) (l : List Effect) : List (List (String × Value)) :=
  l.filterMap (fun e =>
    match e with
    | .insert t' row => if t' = t then some row else none
    | _ => none)

/-- `x` occurs strictly before `y` in the list `l`. -/
def Before (l : List String) (x y : String) : Prop :=
  ∃ i j : Nat, i < j ∧ l[i]? = some x ∧ l[j]? = some y

/-- A nonempty path along dependency edges of a graph: one table
transitively (non-self) references another. -/
inductive DepPath (g : List (String × List String)) : String → String → Prop where
  | single {a b : String} : b ∈ depsOf g a → DepPath g a b
  | cons {a b c : String} : b ∈ depsOf g a → DepPath g b c → DepPath g a c

/-- The dependency graph has a cycle. -/
def HasCycle (g : List (String × List String)) : Prop := ∃ n, DepPath g n n

/-- The invariant maintained by the Kahn worklist: the emitted prefix
has no duplicates, contains only graph nodes, and lists every
dependency of an emitted node before that node. -/
def TopoInv (g : List (String × List String)) (acc : List String) : Prop :=
  acc.Nodup ∧ (∀ a ∈ acc, a ∈ graphNodes g)
  ∧ (∀ a ∈ acc, ∀ d ∈ depsOf g a, d ∈ acc ∧ Before acc d a)

/-! ## Concrete instances used by witnesses and counterexamples -/

/-- A concrete, fully deterministic faker used to evaluate the engine on
closed inputs. -/
def fakerDet : Faker where
  email := fun r => "e" ++ toString r
  phone_number := fun r => "p" ++ toString r
  first_name := fun _ => "fn"
  last_name := fun _ => "ln"
  name := fun _ => "nm"
  address := fun _ => "ad"
  city := fun _ => "ci"
  state := fun _ => "st"
  country := fun _ => "co"
  postcode := fun _ => "pc"
  url := fun _ => "ur"
  ipv4 := fun _ => "ip"
  paragraph := fun _ => "pa"
  sentence := fun _ _ => "se"
  company := fun _ => "cm"
  uuid4 := fun _ => "uu"
  sha256 := fun _ => "h256"
  sha1 := fun _ => "h1"
  slug := fun _ => "sl"
  hex_color := fun _ => "hc"
  domain_name := fun _ => "dn"
  date_time := fun r => r
  pyfloat := fun mn _ _ => (mn : Rat)
  uniform := fun mn _ _ => mn
  random_int := fun mn _ _ => mn
  hexify := fun _ _ => "hx"
  choice := fun l r => l.getD (r % l.length) ""
  word := fun r => if r = 0 then "w" else "w_2"
  boolean := fun _ => true
  date_object := fun r => r
  time_object := fun r => r
  text := fun _ _ => "tx"
  bothify := fun _ r => "ab" ++ toString r

/-- A store that never fails and assigns row id `n + 1` to the n-th
statement. -/
def cleanStore : Store where
  lastrowid := fun n => (n : Int) + 1
  fails := fun _ => false

/-- The fields of the run state that pure row generation (no database
interaction) never modifies. -/
def GenFrame (st st' : St) : Prop :=
  st'.effects = st.effects ∧ st'.execCount = st.execCount
  ∧ st'.inserted_pks = st.inserted_pks ∧ st'.error = st.error
  ∧ st'.summaries = st.summaries

/-- An INTEGER column type. -/
def tyInt : ColType := ⟨.integer, "INTEGER", none⟩

/-- A TEXT column type. -/
def tyText : ColType := ⟨.text, "TEXT", none⟩

/-- A table with a plain (non-unique) foreign key `customer_id`. -/
def tiOrders : TableInfo :=
  ⟨"orders", [⟨"id", tyInt, false⟩, ⟨"customer_id", tyInt, true⟩],
   [⟨"customer_id", "customers", "id"⟩], ["id"], []⟩

/-- A run state in which two customers have been inserted. -/
def stOrders : St :=
  { initialSt [3] with inserted_pks := [("customers", [Value.vint 7, Value.vint 8])] }

/-- A table with a unique, non-primary-key foreign key `user_id`. -/
def tiProfiles : TableInfo :=
  ⟨"profiles", [⟨"id", tyInt, false⟩, ⟨"user_id", tyInt, false⟩],
   [⟨"user_id", "users", "id"⟩], ["id"], ["user_id"]⟩

/-- A run state with a two-element pool for `user_id`. -/
def stProfiles : St :=
  { initialSt [] with available_fk_pks := [("user_id", [Value.vint 1, Value.vint 2])] }

/-- A junction table with a composite primary key. -/
def tiEnroll : TableInfo :=
  ⟨"enrollments",
   [⟨"student_id", tyInt, false⟩, ⟨"course_id", tyInt, false⟩],
   [⟨"student_id", "students", "id"⟩, ⟨"course_id", "courses", "id"⟩],
   ["student_id", "course_id"], []⟩

/-- A simple table with an auto-increment primary key and one text column. -/
def tiUsers : TableInfo :=
  ⟨"users", [⟨"id", tyInt, false⟩, ⟨"zzz", tyText, true⟩], [], ["id"], []⟩

/-- A table with a self-referential foreign key `manager_id`. -/
def tiEmployees : TableInfo :=
  ⟨"employees", [⟨"id", tyInt, false⟩, ⟨"manager_id", tyInt, true⟩],
   [⟨"manager_id", "employees", "id"⟩], ["id"], []⟩

/-- Acyclic pair: table `a` references table `b`. -/
def tiA : TableInfo := ⟨"a", [], [⟨"b_id", "b", "id"⟩], [], []⟩

/-- The referenced table `b`. -/
def tiB : TableInfo := ⟨"b", [], [], [], []⟩

/-- Cyclic pair, first table. -/
def tiCycX : TableInfo := ⟨"x", [], [⟨"y_id", "y", "id"⟩], [], []⟩

/-- Cyclic pair, second table. -/
def tiCycY : TableInfo := ⟨"y", [], [⟨"x_id", "x", "id"⟩], [], []⟩

/-! ## Assoc-list and set helpers -/

theorem setA_lookup_self {α : Type} (k : String) (v : α) (l : List (String × α)) :
    (setA k v l).lookup k = some v := by
  induction l with
  | nil => simp [setA, List.lookup_cons]
  | cons p rest ih =>
    rcases p with ⟨pk, pv⟩
    by_cases h : pk = k
    · subst h
      simp [setA, List.lookup_cons]
    · rw [setA, if_neg h]
      simpa [List.lookup_cons, beq_false_of_ne (Ne.symm h)] using ih

theorem setA_lookup_other {α : Type} (k k' : String) (v : α) (l : List (String × α))
    (h : k' ≠ k) : (setA k v l).lookup k' = l.lookup k' := by
  induction l with
  | nil => simp [setA, List.lookup_cons, beq_false_of_ne h]
  | cons p rest ih =>
    rcases p with ⟨pk, pv⟩
    by_cases hp : pk = k
    · subst hp
      simp [setA, List.lookup_cons, beq_false_of_ne h]
    · rw [setA, if_neg hp]
      by_cases hk' : k' = pk
      · subst hk'
        simp [List.lookup_cons]
      · simpa [List.lookup_cons, beq_false_of_ne hk'] using ih

theorem insertSet_mem {α : Type} [DecidableEq α] (v w : α) (l : List α) :
    w ∈ insertSet v l ↔ w = v ∨ w ∈ l := by
  unfold insertSet
  split
  · rename_i hv
    constructor
    · exact fun h => Or.inr h
    · rintro (rfl | h)
      · exact hv
      · exact h
  · simp [or_comm]

theorem insertSet_subset {α : Type} [DecidableEq α] (v : α) (l : List α) :
    l ⊆ insertSet v l := by
  intro w hw
  rw [insertSet_mem]
  exact Or.inr hw

theorem insertSet_self_mem {α : Type} [DecidableEq α] (v : α) (l : List α) :
    v ∈ insertSet v l := by
  rw [insertSet_mem]
  exact Or.inl rfl

theorem insertSet_nodup {α : Type} [DecidableEq α] (v : α) (l : List α)
    (h : l.Nodup) : (insertSet v l).Nodup := by
  unfold insertSet
  split
  · exact h
  · rename_i hv
    exact List.Nodup.cons hv h

/-! ## The value synthesizer: null gate and rule chain (claims C7, C9, C1) -/

theorem gfv_false_eq (f : Faker) (name : String) (ty : ColType) (rng : List Nat) :
    get_faker_value f name ty false rng = (fakerRuleValue f name ty (rng.headD 0), rng.tail) := rfl

theorem gfv_true_eq (f : Faker) (name : String) (ty : ColType) (rng : List Nat) :
    get_faker_value f name ty true rng =
      if randomFloat (rng.headD 0) < 1/10 then (Value.vnone, rng.tail)
      else get_faker_value f name ty false rng.tail := by
  rw [get_faker_value, if_pos rfl]
  split
  · rfl
  · rw [gfv_false_eq]

theorem gate_filter_eq :
    (Finset.range (2 ^ 53)).filter (fun r => randomFloat r < 1/10) =
      Finset.range 900719925474100 := by
  ext r
  simp only [Finset.mem_filter, Finset.mem_range, randomFloat]
  constructor
  · rintro ⟨hr, hlt⟩
    rw [Nat.mod_eq_of_lt hr] at hlt
    rw [div_lt_div_iff (by positivity) (by norm_num)] at hlt
    have h10 : (r : ℚ) * 10 < 2 ^ 53 := by linarith
    have h2 : (r * 10 : ℕ) < 2 ^ 53 := by exact_mod_cast h10
    omega
  · intro hr
    have hr' : r < 2 ^ 53 := by omega
    refine ⟨hr', ?_⟩
    rw [Nat.mod_eq_of_lt hr']
    rw [div_lt_div_iff (by positivity) (by norm_num)]
    have h2 : (r * 10 : ℕ) < 2 ^ 53 := by omega
    have h10 : (r : ℚ) * 10 < 2 ^ 53 := by exact_mod_cast h2
    linarith

/-- C7: with `nullable=true` the synthesizer first evaluates, exactly
once, a null gate on a single fresh draw, returning `None` when the
draw is below the threshold and otherwise behaving exactly as a
`nullable=false` call on the remaining stream; the gate fires for
900719925474100 of the 2^53 possible draws, a probability within
2^-52 of 10%; with `nullable=false` the gate is never consulted and
the result is the plain rule chain. -/
theorem C7_null_gate :
    (∀ (f : Faker) (name : String) (ty : ColType) (rng : List Nat),
      get_faker_value f name ty true rng =
        if randomFloat (rng.headD 0) < 1/10 then (Value.vnone, rng.tail)
        else get_faker_value f name ty false rng.tail)
    ∧ ((Finset.range (2 ^ 53)).filter (fun r => randomFloat r < 1/10)).card
        = 900719925474100
    ∧ (1 : Rat)/10 < (900719925474100 : Rat) / 2 ^ 53
    ∧ (900719925474100 : Rat) / 2 ^ 53 < 1/10 + 1/2 ^ 52
    ∧ (∀ (f : Faker) (name : String) (ty : ColType) (rng : List Nat),
      get_faker_value f name ty false rng =
        (fakerRuleValue f name ty (rng.headD 0), rng.tail)) := by
  refine ⟨gfv_true_eq, ?_, by norm_num, by norm_num, gfv_false_eq⟩
  rw [gate_filter_eq, Finset.card_range]

/-- C9 (amended): when no name-pattern rule matches the column name and
the type string contains "JSON" without triggering any earlier
type-fallback rule (no recognized class and none of the UUID / INT /
FLOAT / NUMERIC / DECIMAL / REAL / BOOL / DATE / DATETIME / TIMESTAMP /
TIME patterns), the synthesizer returns `None` regardless of the
`nullable` argument — including `nullable=false` calls for primary-key
and unique-constrained columns. -/
theorem C9_json_fallback_null (name : String) (ty : ColType)
    (hname : ∀ (g : Faker) (s : Nat), nameRuleValue g (strLower name) s = none)
    (huuid : strIn "UUID" (strUpper ty.tyStr) = false)
    (hclsI : ty.cls ≠ .integer) (hclsSI : ty.cls ≠ .smallInteger)
    (hclsBI : ty.cls ≠ .bigInteger)
    (hint : strIn "INT" (strUpper ty.tyStr) = false)
    (hclsF : ty.cls ≠ .float) (hclsN : ty.cls ≠ .numeric)
    (hfl : strIn "FLOAT" (strUpper ty.tyStr) = false)
    (hnum : strIn "NUMERIC" (strUpper ty.tyStr) = false)
    (hdec : strIn "DECIMAL" (strUpper ty.tyStr) = false)
    (hreal : strIn "REAL" (strUpper ty.tyStr) = false)
    (hclsB : ty.cls ≠ .boolean)
    (hbool : strIn "BOOL" (strUpper ty.tyStr) = false)
    (hclsD : ty.cls ≠ .date) (hdate : (strUpper ty.tyStr) ≠ "DATE")
    (hclsDT : ty.cls ≠ .dateTime)
    (hdt : strIn "DATETIME" (strUpper ty.tyStr) = false)
    (hts : strIn "TIMESTAMP" (strUpper ty.tyStr) = false)
    (hclsT : ty.cls ≠ .time) (htime : (strUpper ty.tyStr) ≠ "TIME")
    (hjson : strIn "JSON" (strUpper ty.tyStr) = true) :
    ∀ (f : Faker) (nullable : Bool) (rng : List Nat),
      (get_faker_value f name ty nullable rng).1 = Value.vnone := by
  intro f nullable rng
  have hrule : ∀ r, fakerRuleValue f name ty r = Value.vnone := by
    intro r
    unfold fakerRuleValue
    rw [hname]
    unfold typeRuleValue
    simp only [huuid, hint, hfl, hnum, hdec, hreal, hbool, hdt, hts, hjson,
      hclsI, hclsSI, hclsBI, hclsF, hclsN, hclsB, hclsD, hclsDT, hclsT,
      hdate, htime, decide_False, Bool.false_or, Bool.or_false, Bool.or_self,
      if_false, if_true, Bool.false_eq_true, ite_false, ite_true]
  cases nullable
  · rw [gfv_false_eq, hrule]
  · rw [gfv_true_eq]
    split
    · rfl
    · rw [gfv_false_eq, hrule]

/-- Witness for C9: a concrete `data JSONB` column synthesizes `None`
even when called with `nullable=false`. -/
theorem C9_json_fallback_null_witness :
    (get_faker_value fakerDet "data" ⟨TypeClass.other, "JSONB", none⟩ false [5]).1
      = Value.vnone := by
  exact C9_json_fallback_null "data" ⟨TypeClass.other, "JSONB", none⟩
    (fun g s => rfl) (by decide) (by decide) (by decide) (by decide) (by decide)
    (by decide) (by decide) (by decide) (by decide) (by decide) (by decide)
    (by decide) (by decide) (by decide) (by decide) (by decide) (by decide)
    (by decide) (by decide) (by decide) (by decide) fakerDet false [5]

/-- Counterexample to C9 as stated: the column name `zzz` matches no
name rule and the type string `JSONINT` contains "JSON", yet the
synthesizer returns an integer, not null, because the earlier "INT"
type rule fires first. -/
theorem C9_counterexample :
    nameRuleValue fakerDet "zzz" 0 = none
    ∧ strIn "JSON" (strUpper "JSONINT") = true
    ∧ (get_faker_value fakerDet "zzz" ⟨TypeClass.other, "JSONINT", none⟩ false [0]).1
        = Value.vint 1
    ∧ Value.vint 1 ≠ Value.vnone := by
  exact ⟨rfl, rfl, by decide, by decide⟩

theorem genUniqueValue_zero (f : Faker) (name : String) (ty : ColType)
    (used : List Value) (rng : List Nat) :
    genUniqueValue f name ty used 0 rng =
      (Value.vstr (pyStr (get_faker_value f name ty false rng).1 ++ "_" ++ toString used.length),
       insertSet (Value.vstr (pyStr (get_faker_value f name ty false rng).1 ++ "_" ++ toString used.length)) used,
       (get_faker_value f name ty false rng).2) := rfl

theorem genUniqueValue_succ (f : Faker) (name : String) (ty : ColType)
    (used : List Value) (n : Nat) (rng : List Nat) :
    genUniqueValue f name ty used (n + 1) rng =
      (if (get_faker_value f name ty false rng).1 ∈ used
       then genUniqueValue f name ty used n (get_faker_value f name ty false rng).2
       else ((get_faker_value f name ty false rng).1,
             insertSet (get_faker_value f name ty false rng).1 used,
             (get_faker_value f name ty false rng).2)) := rfl

theorem genUniqueValue_spec (f : Faker) (name : String) (ty : ColType) :
    ∀ (n : Nat) (used : List Value) (rng : List Nat),
      ((genUniqueValue f name ty used n rng).1 ∉ used ∨
        (genUniqueValue f name ty used n rng).1 =
          Value.vstr (pyStr (get_faker_value f name ty false (rng.drop n)).1
            ++ "_" ++ toString used.length))
      ∧ (genUniqueValue f name ty used n rng).2.1 =
          insertSet (genUniqueValue f name ty used n rng).1 used := by
  intro n
  induction n with
  | zero =>
    intro used rng
    rw [genUniqueValue_zero]
    exact ⟨Or.inr rfl, rfl⟩
  | succ n ih =>
    intro used rng
    rw [genUniqueValue_succ]
    by_cases hv : (get_faker_value f name ty false rng).1 ∈ used
    · rw [if_pos hv]
      have h2 : (get_faker_value f name ty false rng).2 = rng.tail := by
        rw [gfv_false_eq]
      have hdrop : rng.tail.drop n = rng.drop (n + 1) := by
        rw [← List.drop_one, List.drop_drop, Nat.add_comm]
      rw [h2]
      have := ih used rng.tail
      rw [hdrop] at this
      exact this
    · rw [if_neg hv]
      exact ⟨Or.inl hv, rfl⟩

/-- C1 (amended): for a primary-key or unique-constrained non-foreign-key
column the generator calls the synthesizer with `nullable=false` up to
100 times seeking a value outside `usedUniqueValues`, and on exhaustion
appends a suffix derived from the count of already-used values; the
chosen value is recorded in the set, and it is fresh provided the
suffixed base string is not itself already in the set. -/
theorem C1_unique_value_fresh (f : Faker) (name : String) (ty : ColType)
    (used : List Value) (rng : List Nat)
    (h : Value.vstr (pyStr (get_faker_value f name ty false (rng.drop 100)).1
        ++ "_" ++ toString used.length) ∉ used) :
    (genUniqueValue f name ty used 100 rng).1 ∉ used
    ∧ (genUniqueValue f name ty used 100 rng).2.1 =
        insertSet (genUniqueValue f name ty used 100 rng).1 used := by
  have hs := genUniqueValue_spec f name ty 100 used rng
  refine ⟨?_, hs.2⟩
  rcases hs.1 with hfresh | heq
  · exact hfresh
  · rw [heq]
    exact h

/-- Witness for C1 (amended) at a concrete input: with an empty used
set the generated value is fresh. -/
theorem C1_unique_value_fresh_witness :
    (genUniqueValue fakerDet "zzz" ⟨TypeClass.other, "", none⟩ [] 100 []).1
      ∉ ([] : List Value) := by
  exact (C1_unique_value_fresh fakerDet "zzz" ⟨TypeClass.other, "", none⟩ [] []
    (by simp)).1

/-- Counterexample to C1 as stated: with used set `{"w", "w_2"}` and a
synthesizer that keeps producing `"w"`, all 100 attempts collide and the
suffix fallback produces `"w_2"`, which is already in the set — the
resulting value is not fresh, so a unique column can receive a
duplicate value. -/
theorem C1_counterexample :
    (genUniqueValue fakerDet "zzz" ⟨TypeClass.other, "", none⟩
        [Value.vstr "w", Value.vstr "w_2"] 100 []).1 = Value.vstr "w_2"
    ∧ Value.vstr "w_2" ∈ [Value.vstr "w", Value.vstr "w_2"] := by
  constructor
  · decide
  · simp

/-! ## Frame lemmas for the row generator -/

theorem genFrame_refl (st : St) : GenFrame st st := ⟨rfl, rfl, rfl, rfl, rfl⟩

theorem genFrame_trans {s1 s2 s3 : St} (h1 : GenFrame s1 s2) (h2 : GenFrame s2 s3) :
    GenFrame s1 s3 := by
  obtain ⟨a1, b1, c1, d1, e1⟩ := h1
  obtain ⟨a2, b2, c2, d2, e2⟩ := h2
  exact ⟨a2.trans a1, b2.trans b1, c2.trans c1, d2.trans d1, e2.trans e1⟩

theorem genColValue_frame (f : Faker) (ti : TableInfo) (col : Column) (st : St) :
    GenFrame st (genColValue f ti col st).2
    ∧ (genColValue f ti col st).2.used_pk_combinations = st.used_pk_combinations := by
  unfold genColValue
  dsimp only
  repeat' split
  all_goals simp_all [GenFrame]

theorem buildRow_nil (f : Faker) (ti : TableInfo) (row : List (String × Value)) (st : St) :
    buildRow f ti [] row st = (row, st) := rfl

theorem buildRow_cons (f : Faker) (ti : TableInfo) (col : Column) (rest : List Column)
    (row : List (String × Value)) (st : St) :
    buildRow f ti (col :: rest) row st =
      match genColValue f ti col st with
      | (some v, st') => buildRow f ti rest (setA col.name v row) st'
      | (none, st') => (row, st') := rfl

theorem buildRow_frame (f : Faker) (ti : TableInfo) :
    ∀ (cols : List Column) (row : List (String × Value)) (st : St),
      GenFrame st (buildRow f ti cols row st).2
      ∧ (buildRow f ti cols row st).2.used_pk_combinations = st.used_pk_combinations := by
  intro cols
  induction cols with
  | nil => intro row st; exact ⟨genFrame_refl st, rfl⟩
  | cons col rest ih =>
    intro row st
    have h1 := genColValue_frame f ti col st
    rw [buildRow_cons]
    cases hgc : genColValue f ti col st with
    | mk o st' =>
      rw [hgc] at h1
      cases o with
      | some v =>
        have h2 := ih (setA col.name v row) st'
        exact ⟨genFrame_trans h1.1 h2.1, h2.2.trans h1.2⟩
      | none => exact ⟨h1.1, h1.2⟩

theorem genRowAttempts_succ (f : Faker) (ti : TableInfo) (insertable : List Column)
    (n : Nat) (st : St) :
    genRowAttempts f ti insertable (n + 1) st =
      (let p := buildRow f ti insertable [] st
       if isComposite ti ∧ p.1 ≠ [] then
         if pkCombo ti p.1 ∈ p.2.used_pk_combinations then
           genRowAttempts f ti insertable n p.2
         else (p.1, { p.2 with used_pk_combinations := pkCombo ti p.1 :: p.2.used_pk_combinations })
       else p) := rfl

theorem genRowAttempts_frame (f : Faker) (ti : TableInfo) (insertable : List Column) :
    ∀ (fuel : Nat) (st : St), GenFrame st (genRowAttempts f ti insertable fuel st).2 := by
  intro fuel
  induction fuel with
  | zero => intro st; exact genFrame_refl st
  | succ n ih =>
    intro st
    rw [genRowAttempts_succ]
    have hb := buildRow_frame f ti insertable [] st
    dsimp only
    split
    · split
      · exact genFrame_trans hb.1 (ih _)
      · obtain ⟨a, b, c, d, e⟩ := hb.1
        exact ⟨a, b, c, d, e⟩
    · exact hb.1

@[simp] theorem execStmt_available (store : Store) (e : Effect) (st : St) :
    (execStmt store e st).available_fk_pks = st.available_fk_pks := by
  unfold execStmt; split <;> rfl

@[simp] theorem execStmt_used_unique (store : Store) (e : Effect) (st : St) :
    (execStmt store e st).used_unique_values = st.used_unique_values := by
  unfold execStmt; split <;> rfl

@[simp] theorem execStmt_used_pk (store : Store) (e : Effect) (st : St) :
    (execStmt store e st).used_pk_combinations = st.used_pk_combinations := by
  unfold execStmt; split <;> rfl

@[simp] theorem execStmt_inserted (store : Store) (e : Effect) (st : St) :
    (execStmt store e st).inserted_pks = st.inserted_pks := by
  unfold execStmt; split <;> rfl

@[simp] theorem execStmt_summaries (store : Store) (e : Effect) (st : St) :
    (execStmt store e st).summaries = st.summaries := by
  unfold execStmt; split <;> rfl

@[simp] theorem execStmt_rng (store : Store) (e : Effect) (st : St) :
    (execStmt store e st).rng = st.rng := by
  unfold execStmt; split <;> rfl

@[simp] theorem appendPk_available (t : String) (v : Value) (st : St) :
    (appendPk t v st).available_fk_pks = st.available_fk_pks := rfl

@[simp] theorem appendPk_used_unique (t : String) (v : Value) (st : St) :
    (appendPk t v st).used_unique_values = st.used_unique_values := rfl

@[simp] theorem appendPk_used_pk (t : String) (v : Value) (st : St) :
    (appendPk t v st).used_pk_combinations = st.used_pk_combinations := rfl

@[simp] theorem appendPk_effects (t : String) (v : Value) (st : St) :
    (appendPk t v st).effects = st.effects := rfl

@[simp] theorem appendPk_error (t : String) (v : Value) (st : St) :
    (appendPk t v st).error = st.error := rfl

@[simp] theorem appendPk_summaries (t : String) (v : Value) (st : St) :
    (appendPk t v st).summaries = st.summaries := rfl

@[simp] theorem appendPk_execCount (t : String) (v : Value) (st : St) :
    (appendPk t v st).execCount = st.execCount := rfl

@[simp] theorem commitEff_available (st : St) :
    (commitEff st).available_fk_pks = st.available_fk_pks := rfl

@[simp] theorem commitEff_used_unique (st : St) :
    (commitEff st).used_unique_values = st.used_unique_values := rfl

@[simp] theorem commitEff_error (st : St) : (commitEff st).error = st.error := rfl

@[simp] theorem commitEff_inserted (st : St) :
    (commitEff st).inserted_pks = st.inserted_pks := rfl

@[simp] theorem commitEff_summaries (st : St) :
    (commitEff st).summaries = st.summaries := rfl

@[simp] theorem commitEff_effects (st : St) :
    (commitEff st).effects = st.effects ++ [Effect.commit] := rfl

theorem setA_pool_suffix (k : String) (rest : List Value) (v : Value)
    (pools : List (String × List Value)) (h : pools.lookup k = some (v :: rest))
    (c : String) :
    ((setA k rest pools).lookup c).getD [] <:+ ((pools.lookup c).getD []) := by
  by_cases hc : c = k
  · subst hc
    rw [setA_lookup_self, h]
    exact ⟨[v], rfl⟩
  · rw [setA_lookup_other _ _ _ _ hc]

theorem genColValue_pool (f : Faker) (ti : TableInfo) (col : Column) (st : St)
    (c : String) :
    (((genColValue f ti col st).2.available_fk_pks.lookup c).getD [])
      <:+ ((st.available_fk_pks.lookup c).getD []) := by
  unfold genColValue
  dsimp only
  repeat' split
  all_goals try exact List.suffix_refl _
  rename_i v rest hlk
  exact setA_pool_suffix col.name rest v st.available_fk_pks hlk c

theorem genColValue_used (f : Faker) (ti : TableInfo) (col : Column) (st : St)
    (c : String) (w : Value)
    (hw : w ∈ (st.used_unique_values.lookup c).getD []) :
    w ∈ (((genColValue f ti col st).2.used_unique_values.lookup c).getD []) := by
  unfold genColValue
  dsimp only
  repeat' split
  all_goals try exact hw
  by_cases hc : c = col.name
  · subst hc
    show w ∈ ((setA col.name
        (genUniqueValue f col.name col.type
          ((st.used_unique_values.lookup col.name).getD []) 100 st.rng).2.1
        st.used_unique_values).lookup col.name).getD []
    rw [setA_lookup_self]
    have hspec := (genUniqueValue_spec f col.name col.type 100
      ((st.used_unique_values.lookup col.name).getD []) st.rng).2
    rw [hspec]
    exact insertSet_subset _ _ hw
  · show w ∈ ((setA col.name _ st.used_unique_values).lookup c).getD []
    rw [setA_lookup_other _ _ _ _ hc]
    exact hw

theorem buildRow_pool (f : Faker) (ti : TableInfo) :
    ∀ (cols : List Column) (row : List (String × Value)) (st : St) (c : String),
      (((buildRow f ti cols row st).2.available_fk_pks.lookup c).getD [])
        <:+ ((st.available_fk_pks.lookup c).getD []) := by
  intro cols
  induction cols with
  | nil => intro row st c; exact List.suffix_refl _
  | cons col rest ih =>
    intro row st c
    rw [buildRow_cons]
    have h1 := genColValue_pool f ti col st c
    cases hgc : genColValue f ti col st with
    | mk o st' =>
      rw [hgc] at h1
      cases o with
      | some v => exact (ih (setA col.name v row) st' c).trans h1
      | none => exact h1

theorem buildRow_used (f : Faker) (ti : TableInfo) :
    ∀ (cols : List Column) (row : List (String × Value)) (st : St) (c : String)
      (w : Value), w ∈ (st.used_unique_values.lookup c).getD [] →
      w ∈ ((buildRow f ti cols row st).2.used_unique_values.lookup c).getD [] := by
  intro cols
  induction cols with
  | nil => intro row st c w hw; exact hw
  | cons col rest ih =>
    intro row st c w hw
    rw [buildRow_cons]
    have h1 := genColValue_used f ti col st c w hw
    cases hgc : genColValue f ti col st with
    | mk o st' =>
      rw [hgc] at h1
      cases o with
      | some v => exact ih (setA col.name v row) st' c w h1
      | none => exact h1

theorem genRowAttempts_pool (f : Faker) (ti : TableInfo) (insertable : List Column) :
    ∀ (fuel : Nat) (st : St) (c : String),
      (((genRowAttempts f ti insertable fuel st).2.available_fk_pks.lookup c).getD [])
        <:+ ((st.available_fk_pks.lookup c).getD []) := by
  intro fuel
  induction fuel with
  | zero => intro st c; exact List.suffix_refl _
  | succ n ih =>
    intro st c
    rw [genRowAttempts_succ]
    have hb := buildRow_pool f ti insertable [] st c
    dsimp only
    split
    · split
      · exact (ih _ c).trans hb
      · exact hb
    · exact hb

theorem genRowAttempts_used (f : Faker) (ti : TableInfo) (insertable : List Column) :
    ∀ (fuel : Nat) (st : St) (c : String) (w : Value),
      w ∈ (st.used_unique_values.lookup c).getD [] →
      w ∈ ((genRowAttempts f ti insertable fuel st).2.used_unique_values.lookup c).getD [] := by
  intro fuel
  induction fuel with
  | zero => intro st c w hw; exact hw
  | succ n ih =>
    intro st c w hw
    rw [genRowAttempts_succ]
    have hb := buildRow_used f ti insertable [] st c w hw
    dsimp only
    split
    · split
      · exact ih _ c w hb
      · exact hb
    · exact hb

theorem genRowAttempts_combos (f : Faker) (ti : TableInfo) (insertable : List Column) :
    ∀ (fuel : Nat) (st : St),
      st.used_pk_combinations ⊆
        (genRowAttempts f ti insertable fuel st).2.used_pk_combinations := by
  intro fuel
  induction fuel with
  | zero => intro st; exact fun x hx => hx
  | succ n ih =>
    intro st
    rw [genRowAttempts_succ]
    have hb := (buildRow_frame f ti insertable [] st).2
    dsimp only
    split
    · split
      · intro x hx
        apply ih
        rw [hb]
        exact hx
      · intro x hx
        exact List.mem_cons_of_mem _ (by rw [hb]; exact hx)
    · intro x hx
      rw [hb]
      exact hx

theorem processOneRow_pool (f : Faker) (store : Store) (ti : TableInfo)
    (insertable : List Column) (maxAtt : Nat) (st : St) (c : String) :
    (((processOneRow f store ti insertable maxAtt st).available_fk_pks.lookup c).getD [])
      <:+ ((st.available_fk_pks.lookup c).getD []) := by
  unfold processOneRow
  dsimp only
  have hg := genRowAttempts_pool f ti insertable maxAtt st c
  repeat' split
  all_goals simp_all

theorem processOneRow_used (f : Faker) (store : Store) (ti : TableInfo)
    (insertable : List Column) (maxAtt : Nat) (st : St) (c : String) (w : Value)
    (hw : w ∈ (st.used_unique_values.lookup c).getD []) :
    w ∈ ((processOneRow f store ti insertable maxAtt st).used_unique_values.lookup c).getD [] := by
  unfold processOneRow
  dsimp only
  have hg := genRowAttempts_used f ti insertable maxAtt st c w hw
  repeat' split
  all_goals simp_all

theorem processRows_pool (f : Faker) (store : Store) (ti : TableInfo)
    (insertable : List Column) (maxAtt : Nat) :
    ∀ (n : Nat) (st : St) (c : String),
      (((processRows f store ti insertable maxAtt n st).available_fk_pks.lookup c).getD [])
        <:+ ((st.available_fk_pks.lookup c).getD []) := by
  intro n
  induction n with
  | zero => intro st c; exact List.suffix_refl _
  | succ m ih =>
    intro st c
    show (((processRows f store ti insertable maxAtt m
        (processOneRow f store ti insertable maxAtt st)).available_fk_pks.lookup c).getD [])
      <:+ _
    exact (ih _ c).trans (processOneRow_pool f store ti insertable maxAtt st c)

theorem processRows_used (f : Faker) (store : Store) (ti : TableInfo)
    (insertable : List Column) (maxAtt : Nat) :
    ∀ (n : Nat) (st : St) (c : String) (w : Value),
      w ∈ (st.used_unique_values.lookup c).getD [] →
      w ∈ ((processRows f store ti insertable maxAtt n st).used_unique_values.lookup c).getD [] := by
  intro n
  induction n with
  | zero => intro st c w hw; exact hw
  | succ m ih =>
    intro st c w hw
    exact ih _ c w (processOneRow_used f store ti insertable maxAtt st c w hw)

/-- C10: constraint-tracking state consumed while assembling a row is
never restored.  Across any row attempt, any processed row, and any run
of requested rows — including attempts whose row is abandoned or
discarded — every column's `availableForeignKeyPool` only loses entries
from its front (a popped key stays removed), every value recorded in
`usedUniqueValues` remains recorded, and every tuple recorded in
`usedCompositeKeys` remains recorded. -/
theorem C10_consumed_state_not_restored :
    (∀ (f : Faker) (ti : TableInfo) (insertable : List Column) (fuel : Nat)
        (st : St) (c : String),
      (((genRowAttempts f ti insertable fuel st).2.available_fk_pks.lookup c).getD [])
        <:+ ((st.available_fk_pks.lookup c).getD []))
    ∧ (∀ (f : Faker) (ti : TableInfo) (insertable : List Column) (fuel : Nat)
        (st : St) (c : String) (w : Value),
      w ∈ (st.used_unique_values.lookup c).getD [] →
      w ∈ ((genRowAttempts f ti insertable fuel st).2.used_unique_values.lookup c).getD [])
    ∧ (∀ (f : Faker) (ti : TableInfo) (insertable : List Column) (fuel : Nat) (st : St),
      st.used_pk_combinations ⊆
        (genRowAttempts f ti insertable fuel st).2.used_pk_combinations)
    ∧ (∀ (f : Faker) (store : Store) (ti : TableInfo) (insertable : List Column)
        (maxAtt n : Nat) (st : St) (c : String),
      (((processRows f store ti insertable maxAtt n st).available_fk_pks.lookup c).getD [])
        <:+ ((st.available_fk_pks.lookup c).getD []))
    ∧ (∀ (f : Faker) (store : Store) (ti : TableInfo) (insertable : List Column)
        (maxAtt n : Nat) (st : St) (c : String) (w : Value),
      w ∈ (st.used_unique_values.lookup c).getD [] →
      w ∈ ((processRows f store ti insertable maxAtt n st).used_unique_values.lookup c).getD []) := by
  exact ⟨fun f ti ins fuel st c => genRowAttempts_pool f ti ins fuel st c,
    fun f ti ins fuel st c w hw => genRowAttempts_used f ti ins fuel st c w hw,
    fun f ti ins fuel st => genRowAttempts_combos f ti ins fuel st,
    fun f store ti ins maxAtt n st c => processRows_pool f store ti ins maxAtt n st c,
    fun f store ti ins maxAtt n st c w hw => processRows_used f store ti ins maxAtt n st c w hw⟩

/-- Witness for C10 at a concrete input: a recorded unique value
survives a full row-processing pass. -/
theorem C10_consumed_state_not_restored_witness :
    Value.vstr "x" ∈
      (((processRows fakerDet cleanStore ⟨"t", [], [], [], []⟩ [] 1 1
          { initialSt [] with used_unique_values := [("c", [Value.vstr "x"])] }
        ).used_unique_values.lookup "c").getD []) := by
  exact C10_consumed_state_not_restored.2.2.2.2 fakerDet cleanStore
    ⟨"t", [], [], [], []⟩ [] 1 1
    { initialSt [] with used_unique_values := [("c", [Value.vstr "x"])] }
    "c" (Value.vstr "x") (by decide)

theorem genColValue_fk_unique_pop (f : Faker) (ti : TableInfo) (col : Column)
    (st : St) (ref_table ref_col : String) (v : Value) (rest : List Value)
    (hself : (get_foreign_keys ti).2.lookup col.name = none)
    (hfk : (get_foreign_keys ti).1.lookup col.name = some (ref_table, ref_col))
    (hU : col.name ∈ ti.unique_columns) (hP : col.name ∉ ti.primary_keys)
    (hpool : st.available_fk_pks.lookup col.name = some (v :: rest)) :
    genColValue f ti col st =
      (some v, { st with available_fk_pks := setA col.name rest st.available_fk_pks }) := by
  unfold genColValue
  dsimp only
  rw [hself, hfk, hpool]
  simp only [Option.isSome_none, Bool.false_eq_true, if_false]
  rw [if_pos ⟨hU, hP⟩]

theorem genColValue_fk_unique_empty (f : Faker) (ti : TableInfo) (col : Column)
    (st : St) (ref_table ref_col : String)
    (hself : (get_foreign_keys ti).2.lookup col.name = none)
    (hfk : (get_foreign_keys ti).1.lookup col.name = some (ref_table, ref_col))
    (hU : col.name ∈ ti.unique_columns) (hP : col.name ∉ ti.primary_keys)
    (hpool : st.available_fk_pks.lookup col.name = some []
      ∨ st.available_fk_pks.lookup col.name = none) :
    (col.nullable = true → genColValue f ti col st = (some Value.vnone, st))
    ∧ (col.nullable = false → genColValue f ti col st = (none, st)) := by
  unfold genColValue
  dsimp only
  rw [hself, hfk]
  simp only [Option.isSome_none, Bool.false_eq_true, if_false]
  rw [if_pos ⟨hU, hP⟩]
  have hdec : decide (col.name ∈ ti.primary_keys) = false := decide_eq_false hP
  rcases hpool with hp | hp <;>
    rw [hp] <;>
    constructor <;>
    intro hn <;>
    simp [hn, hdec]

theorem processOneRow_skip (f : Faker) (store : Store) (ti : TableInfo)
    (insertable : List Column) (maxAtt : Nat) (st : St)
    (herr : st.error = none)
    (hskip : (genRowAttempts f ti insertable maxAtt st).1 = [] ∨
      (genRowAttempts f ti insertable maxAtt st).1.length < insertable.length) :
    processOneRow f store ti insertable maxAtt st =
      (genRowAttempts f ti insertable maxAtt st).2 := by
  unfold processOneRow
  dsimp only
  rw [herr]
  simp only [Option.isSome_none, Bool.false_eq_true, if_false]
  rw [if_pos hskip]

theorem processOneRow_summaries (f : Faker) (store : Store) (ti : TableInfo)
    (insertable : List Column) (maxAtt : Nat) (st : St) :
    (processOneRow f store ti insertable maxAtt st).summaries = st.summaries := by
  unfold processOneRow
  dsimp only
  obtain ⟨_, _, _, _, hsum⟩ := genRowAttempts_frame f ti insertable maxAtt st
  repeat' split
  all_goals simp_all

theorem processOneRow_usedpk (f : Faker) (store : Store) (ti : TableInfo)
    (insertable : List Column) (maxAtt : Nat) (st : St) :
    st.used_pk_combinations ⊆
      (processOneRow f store ti insertable maxAtt st).used_pk_combinations := by
  unfold processOneRow
  dsimp only
  have hcombos := genRowAttempts_combos f ti insertable maxAtt st
  repeat' split
  all_goals simp_all

theorem processRows_summaries (f : Faker) (store : Store) (ti : TableInfo)
    (insertable : List Column) (maxAtt : Nat) :
    ∀ (n : Nat) (st : St),
      (processRows f store ti insertable maxAtt n st).summaries = st.summaries := by
  intro n
  induction n with
  | zero => intro st; rfl
  | succ m ih =>
    intro st
    show (processRows f store ti insertable maxAtt m _).summaries = _
    rw [ih]
    exact processOneRow_summaries f store ti insertable maxAtt st

theorem updateRows_summaries (store : Store) (tname scol pkc : String)
    (pks : List Value) :
    ∀ (todo : List Value) (st : St),
      (updateRows store tname scol pkc pks todo st).summaries = st.summaries := by
  intro todo
  induction todo with
  | nil => intro st; rfl
  | cons pkv rest ih =>
    intro st
    unfold updateRows
    dsimp only
    repeat' split
    all_goals simp_all [drawNat]

theorem processSelfCol_summaries (store : Store) (ti : TableInfo) (pkc : String)
    (pks : List Value) (scol : String) (st : St) :
    (processSelfCol store ti pkc pks scol st).summaries = st.summaries := by
  unfold processSelfCol
  dsimp only
  split
  · rfl
  · rw [updateRows_summaries]

theorem selfCols_foldl_summaries (store : Store) (ti : TableInfo) (pkc : String)
    (pks : List Value) :
    ∀ (l : List (String × String × String)) (s : St),
      ((l.foldl (fun s scfk => processSelfCol store ti pkc pks scfk.1 s) s).summaries
        = s.summaries) := by
  intro l
  induction l with
  | nil => intro s; rfl
  | cons p rest ih =>
    intro s
    show ((rest.foldl (fun s scfk => processSelfCol store ti pkc pks scfk.1 s)
      (processSelfCol store ti pkc pks p.1 s)).summaries = s.summaries)
    rw [ih, processSelfCol_summaries]

theorem selfRefPass_summaries (store : Store) (ti : TableInfo)
    (auto_pk : Option String) (st : St) :
    (selfRefPass store ti auto_pk st).summaries = st.summaries := by
  unfold selfRefPass
  dsimp only
  repeat' split
  all_goals simp_all [selfCols_foldl_summaries]

theorem processTable_eq (f : Faker) (store : Store) (schema : List (String × Int))
    (ti : TableInfo) (st : St) (herr : st.error = none)
    (hrc : 0 < (schema.lookup ti.name).getD 0) :
    processTable f store schema ti st =
      (let ia := insertableAndAuto ti
       let ips0 := setA ti.name [] st.inserted_pks
       let st0 : St :=
         { st with
           inserted_pks := ips0,
           used_unique_values := ti.unique_columns.map (fun c => (c, [])),
           used_pk_combinations := [],
           available_fk_pks := initPools ti ips0 }
       let maxAtt := if isComposite ti then 100 else 1
       let st1 := processRows f store ti ia.1 maxAtt
         ((schema.lookup ti.name).getD 0).toNat st0
       if st1.error.isSome then st1
       else
         let st2 := commitEff st1
         let st3 := selfRefPass store ti ia.2 st2
         if st3.error.isSome then st3
         else
           { st3 with summaries := st3.summaries ++
               [(ti.name, ((st3.inserted_pks.lookup ti.name).getD []).length,
                 (schema.lookup ti.name).getD 0)] }) := by
  unfold processTable
  rw [herr]
  simp only [Option.isSome_none, Bool.false_eq_true, if_false]
  rw [if_neg (by omega)]

theorem processTable_summary (f : Faker) (store : Store)
    (schema : List (String × Int)) (ti : TableInfo) (st : St)
    (herr : st.error = none)
    (hrc : 0 < (schema.lookup ti.name).getD 0)
    (hok : (processTable f store schema ti st).error = none) :
    (processTable f store schema ti st).summaries =
      st.summaries ++ [(ti.name,
        (((processTable f store schema ti st).inserted_pks.lookup ti.name).getD []).length,
        (schema.lookup ti.name).getD 0)] := by
  rw [processTable_eq f store schema ti st herr hrc] at hok ⊢
  dsimp only at hok ⊢
  generalize (if isComposite ti then (100 : Nat) else 1) = maxAtt at hok ⊢
  split at hok
  · rename_i h1
    rw [hok] at h1
    simp at h1
  · rename_i h1
    split at hok
    · rename_i h2
      rw [hok] at h2
      simp at h2
    · rename_i h2
      rw [if_neg h1, if_neg h2]
      dsimp only
      rw [selfRefPass_summaries, commitEff_summaries, processRows_summaries]

theorem genColValue_fk_choice (f : Faker) (ti : TableInfo) (col : Column) (st : St)
    (ref_table ref_col : String) (v : Value) (vs : List Value)
    (hself : (get_foreign_keys ti).2.lookup col.name = none)
    (hfk : (get_foreign_keys ti).1.lookup col.name = some (ref_table, ref_col))
    (hcond : ¬(col.name ∈ ti.unique_columns ∧ col.name ∉ ti.primary_keys))
    (hips : st.inserted_pks.lookup ref_table = some (v :: vs)) :
    genColValue f ti col st =
      (some ((v :: vs).getD (st.rng.headD 0 % (v :: vs).length) Value.vnone),
       { st with rng := st.rng.tail })
    ∧ (v :: vs).getD (st.rng.headD 0 % (v :: vs).length) Value.vnone ∈ v :: vs := by
  constructor
  · unfold genColValue
    dsimp only
    rw [hself, hfk]
    simp only [Option.isSome_none, Bool.false_eq_true, if_false]
    rw [if_neg hcond, hips]
  · have hlt : st.rng.headD 0 % (v :: vs).length < (v :: vs).length :=
      Nat.mod_lt _ (by simp)
    rw [List.getD_eq_getElem _ _ hlt]
    exact List.getElem_mem hlt

theorem genColValue_fk_fallback (f : Faker) (ti : TableInfo) (col : Column) (st : St)
    (ref_table ref_col : String)
    (hself : (get_foreign_keys ti).2.lookup col.name = none)
    (hfk : (get_foreign_keys ti).1.lookup col.name = some (ref_table, ref_col))
    (hcond : ¬(col.name ∈ ti.unique_columns ∧ col.name ∉ ti.primary_keys))
    (hips : st.inserted_pks.lookup ref_table = some []
      ∨ st.inserted_pks.lookup ref_table = none) :
    ((col.nullable && !decide (col.name ∈ ti.primary_keys)) = true →
      genColValue f ti col st = (some Value.vnone, st))
    ∧ ((col.nullable && !decide (col.name ∈ ti.primary_keys)) = false →
      genColValue f ti col st = (some (Value.vint 1), st)) := by
  unfold genColValue
  dsimp only
  rw [hself, hfk]
  simp only [Option.isSome_none, Bool.false_eq_true, if_false]
  rw [if_neg hcond]
  rcases hips with hp | hp <;>
    rw [hp] <;>
    constructor <;>
    intro hn <;>
    simp [hn]

/-- C6: for a non-self foreign-key column that is not unique-constrained
(or is part of the primary key), the generator picks the element of the
referenced table's `insertedKeys` selected by the injected random draw
(`random.choice`, uniform over the list) when that list is non-empty;
otherwise it assigns null when the column is nullable, and the static
fallback value 1 when it is not — the row is never failed here. -/
theorem C6_nonunique_fk (f : Faker) (ti : TableInfo) (col : Column) (st : St)
    (ref_table ref_col : String)
    (hself : (get_foreign_keys ti).2.lookup col.name = none)
    (hfk : (get_foreign_keys ti).1.lookup col.name = some (ref_table, ref_col))
    (hcond : ¬(col.name ∈ ti.unique_columns ∧ col.name ∉ ti.primary_keys)) :
    (∀ (v : Value) (vs : List Value),
      st.inserted_pks.lookup ref_table = some (v :: vs) →
      genColValue f ti col st =
        (some ((v :: vs).getD (st.rng.headD 0 % (v :: vs).length) Value.vnone),
         { st with rng := st.rng.tail })
      ∧ (v :: vs).getD (st.rng.headD 0 % (v :: vs).length) Value.vnone ∈ v :: vs)
    ∧ ((st.inserted_pks.lookup ref_table = some []
        ∨ st.inserted_pks.lookup ref_table = none) →
      ((col.nullable && !decide (col.name ∈ ti.primary_keys)) = true →
        genColValue f ti col st = (some Value.vnone, st))
      ∧ ((col.nullable && !decide (col.name ∈ ti.primary_keys)) = false →
        genColValue f ti col st = (some (Value.vint 1), st))) := by
  exact ⟨fun v vs hips => genColValue_fk_choice f ti col st ref_table ref_col v vs
      hself hfk hcond hips,
    fun hips => genColValue_fk_fallback f ti col st ref_table ref_col
      hself hfk hcond hips⟩

/-- Witness for C6 at a concrete input: with two committed customer
keys and draw 3, the generator assigns `customer_id` the key at index
`3 % 2 = 1`. -/
theorem C6_nonunique_fk_witness :
    genColValue fakerDet tiOrders ⟨"customer_id", tyInt, true⟩ stOrders =
      (some (([Value.vint 7, Value.vint 8]).getD
        (stOrders.rng.headD 0 % ([Value.vint 7, Value.vint 8]).length) Value.vnone),
       { stOrders with rng := stOrders.rng.tail })
    ∧ ([Value.vint 7, Value.vint 8]).getD
        (stOrders.rng.headD 0 % ([Value.vint 7, Value.vint 8]).length) Value.vnone
        ∈ [Value.vint 7, Value.vint 8] := by
  exact (C6_nonunique_fk fakerDet tiOrders ⟨"customer_id", tyInt, true⟩ stOrders
    "customers" "id" (by decide) (by decide) (by decide)).1
    (Value.vint 7) [Value.vint 8] (by decide)

/-- C5: for a foreign-key column that is also unique-constrained and
not part of the primary key, the generator pops the head of that
column's `availableForeignKeyPool` when the pool is non-empty; with an
empty or absent pool it assigns null when the column is nullable, and
otherwise abandons the row: the produced row stays incomplete, the
processing step drops it without emitting an insert, without touching
the inserted-keys tally and without raising an error, and the per-table
summary records the inserted count next to the requested count, making
any shortfall visible. -/
theorem C5_unique_fk_pool (f : Faker) (store : Store) (ti : TableInfo)
    (col : Column) (st : St) (ref_table ref_col : String)
    (hself : (get_foreign_keys ti).2.lookup col.name = none)
    (hfk : (get_foreign_keys ti).1.lookup col.name = some (ref_table, ref_col))
    (hU : col.name ∈ ti.unique_columns) (hP : col.name ∉ ti.primary_keys) :
    (∀ (v : Value) (rest : List Value),
      st.available_fk_pks.lookup col.name = some (v :: rest) →
      genColValue f ti col st =
        (some v, { st with available_fk_pks := setA col.name rest st.available_fk_pks }))
    ∧ ((st.available_fk_pks.lookup col.name = some []
        ∨ st.available_fk_pks.lookup col.name = none) →
      (col.nullable = true → genColValue f ti col st = (some Value.vnone, st))
      ∧ (col.nullable = false → genColValue f ti col st = (none, st)))
    ∧ (∀ (insertable : List Column) (maxAtt : Nat), st.error = none →
      ((genRowAttempts f ti insertable maxAtt st).1 = [] ∨
        (genRowAttempts f ti insertable maxAtt st).1.length < insertable.length) →
      processOneRow f store ti insertable maxAtt st =
        (genRowAttempts f ti insertable maxAtt st).2
      ∧ (processOneRow f store ti insertable maxAtt st).effects = st.effects
      ∧ (processOneRow f store ti insertable maxAtt st).inserted_pks = st.inserted_pks
      ∧ (processOneRow f store ti insertable maxAtt st).error = none)
    ∧ (∀ schema : List (String × Int), st.error = none →
      0 < (schema.lookup ti.name).getD 0 →
      (processTable f store schema ti st).error = none →
      (processTable f store schema ti st).summaries =
        st.summaries ++ [(ti.name,
          (((processTable f store schema ti st).inserted_pks.lookup ti.name).getD []).length,
          (schema.lookup ti.name).getD 0)]) := by
  refine ⟨?_, ?_, ?_, ?_⟩
  · intro v rest hpool
    exact genColValue_fk_unique_pop f ti col st ref_table ref_col v rest
      hself hfk hU hP hpool
  · intro hpool
    exact genColValue_fk_unique_empty f ti col st ref_table ref_col
      hself hfk hU hP hpool
  · intro insertable maxAtt herr hskip
    have hs := processOneRow_skip f store ti insertable maxAtt st herr hskip
    obtain ⟨heff, _, hins, herr2, _⟩ := genRowAttempts_frame f ti insertable maxAtt st
    refine ⟨hs, ?_, ?_, ?_⟩
    · rw [hs]; exact heff
    · rw [hs]; exact hins
    · rw [hs, herr2, herr]
  · intro schema herr hrc hok
    exact processTable_summary f store schema ti st herr hrc hok

/-- Witness for C5 at a concrete input: the unique foreign key
`user_id` pops the pool head. -/
theorem C5_unique_fk_pool_witness :
    genColValue fakerDet tiProfiles ⟨"user_id", tyInt, false⟩ stProfiles =
      (some (Value.vint 1),
       { stProfiles with
         available_fk_pks := setA "user_id" [Value.vint 2] stProfiles.available_fk_pks }) := by
  exact (C5_unique_fk_pool fakerDet cleanStore tiProfiles ⟨"user_id", tyInt, false⟩
    stProfiles "users" "id" (by decide) (by decide) (by decide) (by decide)).1
    (Value.vint 1) [Value.vint 2] (by decide)

theorem execStmt_effects (store : Store) (e : Effect) (st : St) :
    (execStmt store e st).effects =
      st.effects ++ (if store.fails st.execCount then [] else [e]) := by
  unfold execStmt
  split <;> simp_all

theorem sampleK_zero (l : List Value) (rng : List Nat) :
    sampleK l 0 rng = ([], rng) := by
  cases l <;> rfl

theorem sampleK_cons (x : Value) (xs : List Value) (k : Nat) (rng : List Nat) :
    sampleK (x :: xs) (k + 1) rng =
      (let r := rng.headD 0
       let i := r % (x :: xs).length
       let picked := (x :: xs).getD i Value.vnone
       let p := sampleK ((x :: xs).eraseIdx i) k rng.tail
       (picked :: p.1, p.2)) := rfl

theorem sampleK_length :
    ∀ (k : Nat) (l : List Value) (rng : List Nat), k ≤ l.length →
      (sampleK l k rng).1.length = k := by
  intro k
  induction k with
  | zero => intro l rng _; rw [sampleK_zero]; rfl
  | succ m ih =>
    intro l rng hk
    cases l with
    | nil => simp at hk
    | cons x xs =>
      rw [sampleK_cons]
      dsimp only
      have hlt : rng.headD 0 % (x :: xs).length < (x :: xs).length :=
        Nat.mod_lt _ (by simp)
      have herase : ((x :: xs).eraseIdx (rng.headD 0 % (x :: xs).length)).length
          = (x :: xs).length - 1 := by
        rw [List.length_eraseIdx]
        rw [if_pos hlt]
      have hk' : m ≤ ((x :: xs).eraseIdx (rng.headD 0 % (x :: xs).length)).length := by
        rw [herase]
        simp at hk ⊢
        omega
      simp only [List.length_cons, Nat.add_left_inj]
      exact ih _ rng.tail hk'

theorem getD_mem_of_pos (l : List Value) (i : Nat) (h : 0 < l.length) :
    l.getD (i % l.length) Value.vnone ∈ l := by
  have hlt : i % l.length < l.length := Nat.mod_lt _ h
  rw [List.getD_eq_getElem _ _ hlt]
  exact List.getElem_mem hlt

theorem updateRows_spec (store : Store) (tname scol pkc : String) (pks : List Value) :
    ∀ (todo : List Value) (st : St),
      ∃ Δ, (updateRows store tname scol pkc pks todo st).effects = st.effects ++ Δ
        ∧ ∀ e ∈ Δ, ∃ rv pv, e = Effect.update tname scol pkc rv pv
            ∧ rv ≠ pv ∧ rv ∈ pks := by
  intro todo
  induction todo with
  | nil => intro st; exact ⟨[], by simp [updateRows], by simp⟩
  | cons pkv rest ih =>
    intro st
    unfold updateRows
    dsimp only
    split
    · exact ⟨[], by simp, by simp⟩
    · split
      · rename_i hlen
        set other := pks.filter (fun p => p ≠ pkv) with hother
        have hpos : 0 < other.length := Nat.pos_of_ne_zero hlen
        set refv := other.getD (st.rng.headD 0 % other.length) Value.vnone with hrefv
        have hmem : refv ∈ other := getD_mem_of_pos other (st.rng.headD 0) hpos
        have hne : refv ≠ pkv := by
          have := List.of_mem_filter hmem
          simpa using this
        have hpk : refv ∈ pks := List.mem_of_mem_filter hmem
        obtain ⟨Δr, hΔr, hprop⟩ := ih
          (execStmt store (.update tname scol pkc refv pkv)
            { st with rng := st.rng.tail })
        refine ⟨(if store.fails st.execCount then [] else
            [Effect.update tname scol pkc refv pkv]) ++ Δr, ?_, ?_⟩
        · have hd1 : (drawNat st).1 = st.rng.headD 0 := rfl
          have hd2 : (drawNat st).2 = { st with rng := st.rng.tail } := rfl
          rw [hd1, hd2, ← hrefv, hΔr, execStmt_effects]
          simp
        · intro e he
          rcases List.mem_append.mp he with h1 | h2
          · split at h1
            · simp at h1
            · rcases List.mem_singleton.mp h1 with rfl
              exact ⟨refv, pkv, rfl, hne, hpk⟩
          · exact hprop e h2
      · exact ih st

theorem processSelfCol_spec (store : Store) (ti : TableInfo) (pkc : String)
    (pks : List Value) (scol : String) (st : St) :
    ∃ Δ, (processSelfCol store ti pkc pks scol st).effects = st.effects ++ Δ
      ∧ ∀ e ∈ Δ, ∃ rv pv, e = Effect.update ti.name scol pkc rv pv
          ∧ rv ≠ pv ∧ rv ∈ pks := by
  unfold processSelfCol
  dsimp only
  split
  · exact ⟨[], by simp, by simp⟩
  · exact updateRows_spec store ti.name scol pkc pks _ _

theorem selfCols_foldl_spec (store : Store) (ti : TableInfo) (pkc : String)
    (pks : List Value) :
    ∀ (l : List (String × String × String)) (s : St),
      ∃ Δ, ((l.foldl (fun s scfk => processSelfCol store ti pkc pks scfk.1 s) s).effects
          = s.effects ++ Δ)
        ∧ ∀ e ∈ Δ, ∃ c rv pv, e = Effect.update ti.name c pkc rv pv
            ∧ rv ≠ pv ∧ rv ∈ pks := by
  intro l
  induction l with
  | nil => intro s; exact ⟨[], by simp, by simp⟩
  | cons p rest ih =>
    intro s
    obtain ⟨Δ1, h1, hp1⟩ := processSelfCol_spec store ti pkc pks p.1 s
    obtain ⟨Δ2, h2, hp2⟩ := ih (processSelfCol store ti pkc pks p.1 s)
    refine ⟨Δ1 ++ Δ2, ?_, ?_⟩
    · show ((rest.foldl (fun s scfk => processSelfCol store ti pkc pks scfk.1 s)
        (processSelfCol store ti pkc pks p.1 s)).effects = _)
      rw [h2, h1, List.append_assoc]
    · intro e he
      rcases List.mem_append.mp he with hh | hh
      · obtain ⟨rv, pv, heq, hne, hmem⟩ := hp1 e hh
        exact ⟨p.1, rv, pv, heq, hne, hmem⟩
      · exact hp2 e hh

theorem selfRefPass_spec (store : Store) (ti : TableInfo) (auto_pk : Option String)
    (st : St) :
    ∃ Δ, (selfRefPass store ti auto_pk st).effects = st.effects ++ Δ
      ∧ ∀ c pc rv pv, Effect.update ti.name c pc rv pv ∈ Δ →
          rv ≠ pv ∧ rv ∈ (st.inserted_pks.lookup ti.name).getD [] := by
  unfold selfRefPass
  dsimp only
  split
  · exact ⟨[], by simp, by simp⟩
  · split
    · split
      · rename_i pkc _
        obtain ⟨Δ, hΔ, hprop⟩ := selfCols_foldl_spec store ti pkc
          ((st.inserted_pks.lookup ti.name).getD [])
          ((get_foreign_keys ti).2) st
        split
        · exact ⟨Δ, hΔ, fun c pc rv pv hmem => by
            obtain ⟨c', rv', pv', heq, hne, hm⟩ := hprop _ hmem
            cases heq
            exact ⟨hne, hm⟩⟩
        · refine ⟨Δ ++ [Effect.commit], ?_, ?_⟩
          · rw [commitEff_effects, hΔ, List.append_assoc]
          · intro c pc rv pv hmem
            rcases List.mem_append.mp hmem with hh | hh
            · obtain ⟨c', rv', pv', heq, hne, hm⟩ := hprop _ hh
              cases heq
              exact ⟨hne, hm⟩
            · simp at hh
      · exact ⟨[], by simp, by simp⟩
    · exact ⟨[], by simp, by simp⟩

theorem processSelfCol_single (store : Store) (ti : TableInfo) (pkc : String)
    (pks : List Value) (scol : String) (st : St) (hpks : pks.length = 1) :
    processSelfCol store ti pkc pks scol st = st := by
  unfold processSelfCol
  dsimp only
  split
  · rfl
  · rw [hpks]
    norm_num
    rw [sampleK_zero]
    unfold updateRows
    rfl

theorem selfCols_foldl_single (store : Store) (ti : TableInfo) (pkc : String)
    (pks : List Value) (hpks : pks.length = 1) :
    ∀ (l : List (String × String × String)) (s : St),
      (l.foldl (fun s scfk => processSelfCol store ti pkc pks scfk.1 s) s) = s := by
  intro l
  induction l with
  | nil => intro s; rfl
  | cons p rest ih =>
    intro s
    show (rest.foldl (fun s scfk => processSelfCol store ti pkc pks scfk.1 s)
      (processSelfCol store ti pkc pks p.1 s)) = s
    rw [processSelfCol_single store ti pkc pks p.1 s hpks, ih]

theorem selfRefPass_single (store : Store) (ti : TableInfo) (auto_pk : Option String)
    (st : St) (hpks : ((st.inserted_pks.lookup ti.name).getD []).length = 1) :
    (selfRefPass store ti auto_pk st).effects = st.effects
    ∨ (selfRefPass store ti auto_pk st).effects = st.effects ++ [Effect.commit] := by
  unfold selfRefPass
  dsimp only
  split
  · exact Or.inl rfl
  · split
    · split
      · rename_i pkc _
        rw [selfCols_foldl_single store ti pkc _ hpks]
        split
        · exact Or.inl rfl
        · exact Or.inr (commitEff_effects st)
      · exact Or.inl rfl
    · exact Or.inl rfl

theorem genColValue_selfref (f : Faker) (ti : TableInfo) (col : Column) (st : St)
    (hself : ((get_foreign_keys ti).2.lookup col.name).isSome) :
    genColValue f ti col st = (some Value.vnone, st) := by
  unfold genColValue
  dsimp only
  rw [if_pos hself]

/-- C4 (amended): self-referential foreign-key columns are assigned
null during the first insertion pass; after the table's first commit,
for each self-referential column the resolver samples exactly
`floor(count/2)` of the inserted keys without replacement (so the
sample is empty, not "all of them", when fewer than two rows exist);
every update it issues assigns a key drawn from the table's own
`insertedKeys` that differs from the updated row's primary-key value,
keyed on the primary-key column; and when only one row exists no
update occurs. -/
theorem C4_self_reference_resolver :
    (∀ (f : Faker) (ti : TableInfo) (col : Column) (st : St),
      ((get_foreign_keys ti).2.lookup col.name).isSome →
      genColValue f ti col st = (some Value.vnone, st))
    ∧ (∀ (pks : List Value) (rng : List Nat),
      (sampleK pks (min (pks.length / 2) pks.length) rng).1.length = pks.length / 2)
    ∧ (∀ (store : Store) (ti : TableInfo) (auto_pk : Option String) (st : St),
      ∃ Δ, (selfRefPass store ti auto_pk st).effects = st.effects ++ Δ
        ∧ ∀ c pc rv pv, Effect.update ti.name c pc rv pv ∈ Δ →
            rv ≠ pv ∧ rv ∈ (st.inserted_pks.lookup ti.name).getD [])
    ∧ (∀ (store : Store) (ti : TableInfo) (auto_pk : Option String) (st : St),
      ((st.inserted_pks.lookup ti.name).getD []).length = 1 →
      (selfRefPass store ti auto_pk st).effects = st.effects
      ∨ (selfRefPass store ti auto_pk st).effects = st.effects ++ [Effect.commit]) := by
  refine ⟨genColValue_selfref, ?_, selfRefPass_spec, selfRefPass_single⟩
  intro pks rng
  exact sampleK_length _ pks rng (Nat.min_le_right _ _) |>.trans
    (Nat.min_eq_left (Nat.div_le_self _ _))

/-- Witness for C4 at concrete inputs: the self-referential
`manager_id` is set to null in the first pass, and with a single
inserted employee the resolver issues no update. -/
theorem C4_self_reference_resolver_witness :
    genColValue fakerDet tiEmployees ⟨"manager_id", tyInt, true⟩ (initialSt [])
      = (some Value.vnone, initialSt [])
    ∧ ((selfRefPass cleanStore tiEmployees (some "id")
          { initialSt [] with inserted_pks := [("employees", [Value.vint 1])] }).effects
        = { initialSt [] with inserted_pks := [("employees", [Value.vint 1])] }.effects
      ∨ (selfRefPass cleanStore tiEmployees (some "id")
          { initialSt [] with inserted_pks := [("employees", [Value.vint 1])] }).effects
        = { initialSt [] with inserted_pks := [("employees", [Value.vint 1])] }.effects
            ++ [Effect.commit]) := by
  exact ⟨C4_self_reference_resolver.1 fakerDet tiEmployees ⟨"manager_id", tyInt, true⟩
      (initialSt []) (by decide),
    C4_self_reference_resolver.2.2.2 cleanStore tiEmployees (some "id")
      { initialSt [] with inserted_pks := [("employees", [Value.vint 1])] } (by decide)⟩

/-- Counterexample to C4 as stated: with exactly one inserted key the
claim says the resolver samples all of them (one key), but the code
samples `min(1 // 2, 1) = 0` keys. -/
theorem C4_counterexample :
    (sampleK [Value.vint 5]
      (min ([Value.vint 5].length / 2) [Value.vint 5].length) [0]).1.length = 0
    ∧ ¬ ((sampleK [Value.vint 5]
        (min ([Value.vint 5].length / 2) [Value.vint 5].length) [0]).1.length
      = [Value.vint 5].length) := by
  constructor
  · decide
  · decide

theorem genRowAttempts_composite (f : Faker) (ti : TableInfo)
    (insertable : List Column) (hcomp : isComposite ti = true) :
    ∀ (fuel : Nat) (st : St),
      ((genRowAttempts f ti insertable fuel st).1 = []
        ∧ (genRowAttempts f ti insertable fuel st).2.used_pk_combinations
            = st.used_pk_combinations)
      ∨ ((genRowAttempts f ti insertable fuel st).1 ≠ []
        ∧ pkCombo ti (genRowAttempts f ti insertable fuel st).1 ∉ st.used_pk_combinations
        ∧ (genRowAttempts f ti insertable fuel st).2.used_pk_combinations
            = pkCombo ti (genRowAttempts f ti insertable fuel st).1
              :: st.used_pk_combinations) := by
  intro fuel
  induction fuel with
  | zero => intro st; exact Or.inl ⟨rfl, rfl⟩
  | succ n ih =>
    intro st
    rw [genRowAttempts_succ]
    dsimp only
    have hused := (buildRow_frame f ti insertable [] st).2
    split
    · rename_i hcond
      split
      · rename_i hmem
        have := ih (buildRow f ti insertable [] st).2
        rw [hused] at this
        exact this
      · rename_i hmem
        rw [hused] at hmem
        exact Or.inr ⟨hcond.2, hmem, by rw [hused]⟩
    · rename_i hcond
      rw [hcomp] at hcond
      simp only [true_and] at hcond
      have hrow : (buildRow f ti insertable [] st).1 = [] := by
        by_contra hne
        exact hcond hne
      exact Or.inl ⟨hrow, hused⟩

theorem insertsOf_append (t : String) (l1 l2 : List Effect) :
    insertsOf t (l1 ++ l2) = insertsOf t l1 ++ insertsOf t l2 := by
  unfold insertsOf
  rw [List.filterMap_append]

theorem insertsOf_single (t : String) (row : List (String × Value)) :
    insertsOf t [Effect.insert t row] = [row] := by
  simp [insertsOf]

theorem processOneRow_composite (f : Faker) (store : Store) (ti : TableInfo)
    (insertable : List Column) (maxAtt : Nat) (hcomp : isComposite ti = true)
    (st : St) :
    ∃ Δ, (processOneRow f store ti insertable maxAtt st).effects = st.effects ++ Δ
      ∧ (insertsOf ti.name Δ = []
        ∨ ∃ row, insertsOf ti.name Δ = [row]
          ∧ pkCombo ti row ∉ st.used_pk_combinations
          ∧ pkCombo ti row ∈
              (processOneRow f store ti insertable maxAtt st).used_pk_combinations) := by
  have hgen := genRowAttempts_composite f ti insertable hcomp maxAtt st
  obtain ⟨heff, hexc, hins, herr1, hsum⟩ := genRowAttempts_frame f ti insertable maxAtt st
  unfold processOneRow
  dsimp only
  split
  · exact ⟨[], by simp, Or.inl rfl⟩
  · rename_i herr0
    split
    · rename_i hskip
      exact ⟨[], by rw [heff]; simp, Or.inl rfl⟩
    · rename_i hskip
      have hrow : (genRowAttempts f ti insertable maxAtt st).1 ≠ [] := by
        intro hn
        exact hskip (Or.inl hn)
      rcases hgen with ⟨h1, _⟩ | ⟨_, hfresh, hrec⟩
      · exact absurd h1 hrow
      · have hexec := execStmt_effects store
          (.insert ti.name (genRowAttempts f ti insertable maxAtt st).1)
          (genRowAttempts f ti insertable maxAtt st).2
        split
        · rename_i hfail
          have hfails : store.fails (genRowAttempts f ti insertable maxAtt st).2.execCount
              = true := by
            by_contra hb
            rw [Bool.not_eq_true] at hb
            unfold execStmt at hfail
            rw [hb] at hfail
            simp [herr1] at hfail
            exact herr0 hfail
          refine ⟨[], ?_, Or.inl rfl⟩
          rw [hexec, hfails, heff]
          simp
        · rename_i hnofail
          have hfails : store.fails (genRowAttempts f ti insertable maxAtt st).2.execCount
              = false := by
            by_contra hb
            rw [Bool.not_eq_false] at hb
            unfold execStmt at hnofail
            rw [hb] at hnofail
            simp at hnofail
          refine ⟨[Effect.insert ti.name (genRowAttempts f ti insertable maxAtt st).1],
            ?_, ?_⟩
          · repeat' split
            all_goals simp_all [execStmt]
          · refine Or.inr ⟨(genRowAttempts f ti insertable maxAtt st).1,
              insertsOf_single _ _, hfresh, ?_⟩
            repeat' split
            all_goals simp_all [execStmt, hrec]

theorem processRows_usedpk (f : Faker) (store : Store) (ti : TableInfo)
    (insertable : List Column) (maxAtt : Nat) :
    ∀ (n : Nat) (st : St),
      st.used_pk_combinations ⊆
        (processRows f store ti insertable maxAtt n st).used_pk_combinations := by
  intro n
  induction n with
  | zero => exact fun st x hx => hx
  | succ m ih =>
    intro st x hx
    exact ih _ (processOneRow_usedpk f store ti insertable maxAtt st hx)

theorem processRows_composite (f : Faker) (store : Store) (ti : TableInfo)
    (insertable : List Column) (maxAtt : Nat) (hcomp : isComposite ti = true) :
    ∀ (n : Nat) (st : St),
      ∃ Δ, (processRows f store ti insertable maxAtt n st).effects = st.effects ++ Δ
        ∧ (∀ row ∈ insertsOf ti.name Δ,
            pkCombo ti row ∉ st.used_pk_combinations
            ∧ pkCombo ti row ∈
                (processRows f store ti insertable maxAtt n st).used_pk_combinations)
        ∧ List.Pairwise (fun r1 r2 => pkCombo ti r1 ≠ pkCombo ti r2)
            (insertsOf ti.name Δ) := by
  intro n
  induction n with
  | zero => intro st; exact ⟨[], by simp [processRows], by simp [insertsOf], by simp [insertsOf]⟩
  | succ m ih =>
    intro st
    obtain ⟨Δ1, h1, hprop1⟩ := processOneRow_composite f store ti insertable maxAtt hcomp st
    obtain ⟨Δ2, h2, hmem2, hpair2⟩ := ih (processOneRow f store ti insertable maxAtt st)
    refine ⟨Δ1 ++ Δ2, ?_, ?_, ?_⟩
    · show (processRows f store ti insertable maxAtt m
        (processOneRow f store ti insertable maxAtt st)).effects = _
      rw [h2, h1, List.append_assoc]
    · intro row hrow
      rw [insertsOf_append] at hrow
      rcases List.mem_append.mp hrow with hr | hr
      · rcases hprop1 with hnil | ⟨row1, hrow1, hfresh1, hin1⟩
        · rw [hnil] at hr
          simp at hr
        · rw [hrow1] at hr
          rcases List.mem_singleton.mp hr with rfl
          exact ⟨hfresh1, processRows_usedpk f store ti insertable maxAtt m _ hin1⟩
      · obtain ⟨hf2, hi2⟩ := hmem2 row hr
        exact ⟨fun hmem =>
          hf2 (processOneRow_usedpk f store ti insertable maxAtt st hmem), hi2⟩
    · rw [insertsOf_append, List.pairwise_append]
      refine ⟨?_, hpair2, ?_⟩
      · rcases hprop1 with hnil | ⟨row1, hrow1, _, _⟩
        · rw [hnil]
          exact List.Pairwise.nil
        · rw [hrow1]
          exact List.pairwise_singleton _ _
      · intro a ha b hb
        rcases hprop1 with hnil | ⟨row1, hrow1, hfresh1, hin1⟩
        · rw [hnil] at ha
          simp at ha
        · rw [hrow1] at ha
          rcases List.mem_singleton.mp ha with rfl
          obtain ⟨hf2, _⟩ := hmem2 b hb
          intro hEq
          rw [hEq] at hin1
          exact hf2 hin1

theorem insertsOf_commit (t : String) : insertsOf t [Effect.commit] = [] := rfl

theorem insertsOf_updates_nil (t : String) :
    ∀ (Δ : List Effect),
      (∀ e ∈ Δ, ∃ tn c pc rv pv, e = Effect.update tn c pc rv pv) →
      insertsOf t Δ = [] := by
  intro Δ
  induction Δ with
  | nil => intro _; rfl
  | cons e rest ih =>
    intro h
    obtain ⟨tn, c, pc, rv, pv, heq⟩ := h e (List.mem_cons_self e rest)
    subst heq
    show insertsOf t (Effect.update tn c pc rv pv :: rest) = []
    unfold insertsOf at *
    simp only [List.filterMap_cons]
    exact ih (fun e' he' => h e' (List.mem_cons_of_mem _ he'))

theorem selfRefPass_no_inserts (store : Store) (ti : TableInfo)
    (auto_pk : Option String) (st : St) :
    ∃ Δ, (selfRefPass store ti auto_pk st).effects = st.effects ++ Δ
      ∧ ∀ t, insertsOf t Δ = [] := by
  unfold selfRefPass
  dsimp only
  split
  · exact ⟨[], by simp, fun t => rfl⟩
  · split
    · split
      · rename_i pkc _
        obtain ⟨Δ, hΔ, hprop⟩ := selfCols_foldl_spec store ti pkc
          ((st.inserted_pks.lookup ti.name).getD [])
          ((get_foreign_keys ti).2) st
        have hupd : ∀ t, insertsOf t Δ = [] := by
          intro t
          apply insertsOf_updates_nil
          intro e he
          obtain ⟨c, rv, pv, heq, _, _⟩ := hprop e he
          exact ⟨ti.name, c, pkc, rv, pv, heq⟩
        split
        · exact ⟨Δ, hΔ, hupd⟩
        · refine ⟨Δ ++ [Effect.commit], ?_, ?_⟩
          · rw [commitEff_effects, hΔ, List.append_assoc]
          · intro t
            rw [insertsOf_append, hupd, insertsOf_commit]
            rfl
      · exact ⟨[], by simp, fun t => rfl⟩
    · exact ⟨[], by simp, fun t => rfl⟩

theorem processTable_composite (f : Faker) (store : Store)
    (schema : List (String × Int)) (ti : TableInfo) (st : St)
    (hcomp : isComposite ti = true) :
    ∃ Δ, (processTable f store schema ti st).effects = st.effects ++ Δ
      ∧ List.Pairwise (fun r1 r2 => pkCombo ti r1 ≠ pkCombo ti r2)
          (insertsOf ti.name Δ) := by
  unfold processTable
  dsimp only
  generalize (if isComposite ti then (100 : Nat) else 1) = maxAtt
  split
  · exact ⟨[], by simp, by simp [insertsOf]⟩
  · split
    · exact ⟨[], by simp, by simp [insertsOf]⟩
    · obtain ⟨Δ1, h1, hmem1, hpair1⟩ := processRows_composite f store ti
        (insertableAndAuto ti).1 maxAtt hcomp ((schema.lookup ti.name).getD 0).toNat
        { st with
          inserted_pks := setA ti.name [] st.inserted_pks,
          used_unique_values := ti.unique_columns.map (fun c => (c, [])),
          used_pk_combinations := [],
          available_fk_pks := initPools ti (setA ti.name [] st.inserted_pks) }
      split
      · exact ⟨Δ1, h1, hpair1⟩
      · obtain ⟨Δsr, hsr, hnoins⟩ := selfRefPass_no_inserts store ti
          (insertableAndAuto ti).2
          (commitEff (processRows f store ti (insertableAndAuto ti).1 maxAtt
            ((schema.lookup ti.name).getD 0).toNat
            { st with
              inserted_pks := setA ti.name [] st.inserted_pks,
              used_unique_values := ti.unique_columns.map (fun c => (c, [])),
              used_pk_combinations := [],
              available_fk_pks := initPools ti (setA ti.name [] st.inserted_pks) }))
        have heffs : ∀ Δfin, Δfin = Δ1 ++ [Effect.commit] ++ Δsr →
            List.Pairwise (fun r1 r2 => pkCombo ti r1 ≠ pkCombo ti r2)
              (insertsOf ti.name Δfin) := by
          intro Δfin hf
          subst hf
          rw [insertsOf_append, insertsOf_append, hnoins, insertsOf_commit]
          simpa using hpair1
        split
        · refine ⟨Δ1 ++ [Effect.commit] ++ Δsr, ?_, heffs _ rfl⟩
          rw [hsr, commitEff_effects, h1]
          simp
        · refine ⟨Δ1 ++ [Effect.commit] ++ Δsr, ?_, heffs _ rfl⟩
          show (selfRefPass store ti (insertableAndAuto ti).2 _).effects = _
          rw [hsr, commitEff_effects, h1]
          simp

theorem genRowAttempts_single (f : Faker) (ti : TableInfo)
    (insertable : List Column) (st : St) (hcomp : isComposite ti = false) :
    genRowAttempts f ti insertable 1 st = buildRow f ti insertable [] st := by
  rw [genRowAttempts_succ]
  dsimp only
  rw [hcomp]
  simp

/-- C2: for a composite-primary-key table every row attempt either
fails (empty row, tracking set unchanged) or yields a row whose
primary-key tuple was not yet in `usedCompositeKeys` and records it;
the per-row attempt budget is bounded by the fuel (100 in the source);
a table with a single-column primary key performs exactly one
generation per row — the attempt loop collapses to a single
`buildRow` with no retry; and over a whole table run, no two insert
effects of a composite-primary-key table carry the same tuple of
primary-key column values. -/
theorem C2_composite_retry_distinct :
    (∀ (f : Faker) (ti : TableInfo) (insertable : List Column),
      isComposite ti = true →
      ∀ (fuel : Nat) (st : St),
        ((genRowAttempts f ti insertable fuel st).1 = []
          ∧ (genRowAttempts f ti insertable fuel st).2.used_pk_combinations
              = st.used_pk_combinations)
        ∨ ((genRowAttempts f ti insertable fuel st).1 ≠ []
          ∧ pkCombo ti (genRowAttempts f ti insertable fuel st).1
              ∉ st.used_pk_combinations
          ∧ (genRowAttempts f ti insertable fuel st).2.used_pk_combinations
              = pkCombo ti (genRowAttempts f ti insertable fuel st).1
                :: st.used_pk_combinations))
    ∧ (∀ (f : Faker) (ti : TableInfo) (insertable : List Column) (st : St),
      isComposite ti = false →
      genRowAttempts f ti insertable 1 st = buildRow f ti insertable [] st)
    ∧ (∀ (f : Faker) (store : Store) (schema : List (String × Int))
        (ti : TableInfo) (st : St), isComposite ti = true →
      ∃ Δ, (processTable f store schema ti st).effects = st.effects ++ Δ
        ∧ List.Pairwise (fun r1 r2 => pkCombo ti r1 ≠ pkCombo ti r2)
            (insertsOf ti.name Δ)) := by
  exact ⟨fun f ti ins hcomp fuel st => genRowAttempts_composite f ti ins hcomp fuel st,
    fun f ti ins st hcomp => genRowAttempts_single f ti ins st hcomp,
    fun f store schema ti st hcomp => processTable_composite f store schema ti st hcomp⟩

/-- Witness for C2 at concrete inputs: the single-primary-key `users`
table generates each row in one attempt, and a run over the composite
`enrollments` table produces pairwise distinct key tuples. -/
theorem C2_composite_retry_distinct_witness :
    genRowAttempts fakerDet tiUsers [⟨"zzz", tyText, true⟩] 1 (initialSt [])
      = buildRow fakerDet tiUsers [⟨"zzz", tyText, true⟩] [] (initialSt [])
    ∧ (∃ Δ, (processTable fakerDet cleanStore [("enrollments", 2)] tiEnroll
        { initialSt [] with
          inserted_pks := [("students", [Value.vint 1]), ("courses", [Value.vint 2])] }).effects
        = { initialSt [] with
            inserted_pks := [("students", [Value.vint 1]), ("courses", [Value.vint 2])] }.effects ++ Δ
      ∧ List.Pairwise (fun r1 r2 => pkCombo tiEnroll r1 ≠ pkCombo tiEnroll r2)
          (insertsOf tiEnroll.name Δ)) := by
  exact ⟨C2_composite_retry_distinct.2.1 fakerDet tiUsers [⟨"zzz", tyText, true⟩]
      (initialSt []) (by decide),
    C2_composite_retry_distinct.2.2 fakerDet cleanStore [("enrollments", 2)] tiEnroll
      { initialSt [] with
        inserted_pks := [("students", [Value.vint 1]), ("courses", [Value.vint 2])] }
      (by decide)⟩

theorem execStmt_error_clean (store : Store) (e : Effect) (st : St)
    (hclean : ∀ n, store.fails n = false) :
    (execStmt store e st).error = st.error := by
  unfold execStmt
  rw [hclean st.execCount]
  simp

theorem processOneRow_error_clean (f : Faker) (store : Store) (ti : TableInfo)
    (insertable : List Column) (maxAtt : Nat) (st : St)
    (hclean : ∀ n, store.fails n = false) :
    (processOneRow f store ti insertable maxAtt st).error = st.error := by
  obtain ⟨_, _, _, herr1, _⟩ := genRowAttempts_frame f ti insertable maxAtt st
  unfold processOneRow
  dsimp only
  repeat' split
  all_goals simp_all [execStmt, hclean]

theorem processRows_error_clean (f : Faker) (store : Store) (ti : TableInfo)
    (insertable : List Column) (maxAtt : Nat)
    (hclean : ∀ n, store.fails n = false) :
    ∀ (n : Nat) (st : St),
      (processRows f store ti insertable maxAtt n st).error = st.error := by
  intro n
  induction n with
  | zero => intro st; rfl
  | succ m ih =>
    intro st
    show (processRows f store ti insertable maxAtt m _).error = _
    rw [ih, processOneRow_error_clean f store ti insertable maxAtt st hclean]

theorem updateRows_error_clean (store : Store) (tname scol pkc : String)
    (pks : List Value) (hclean : ∀ n, store.fails n = false) :
    ∀ (todo : List Value) (st : St),
      (updateRows store tname scol pkc pks todo st).error = st.error := by
  intro todo
  induction todo with
  | nil => intro st; rfl
  | cons pkv rest ih =>
    intro st
    unfold updateRows
    dsimp only
    repeat' split
    all_goals simp_all [execStmt, hclean, drawNat]

theorem processSelfCol_error_clean (store : Store) (ti : TableInfo) (pkc : String)
    (pks : List Value) (scol : String) (st : St)
    (hclean : ∀ n, store.fails n = false) :
    (processSelfCol store ti pkc pks scol st).error = st.error := by
  unfold processSelfCol
  dsimp only
  split
  · rfl
  · rw [updateRows_error_clean store ti.name scol pkc pks hclean]

theorem selfCols_foldl_error_clean (store : Store) (ti : TableInfo) (pkc : String)
    (pks : List Value) (hclean : ∀ n, store.fails n = false) :
    ∀ (l : List (String × String × String)) (s : St),
      ((l.foldl (fun s scfk => processSelfCol store ti pkc pks scfk.1 s) s).error
        = s.error) := by
  intro l
  induction l with
  | nil => intro s; rfl
  | cons p rest ih =>
    intro s
    show ((rest.foldl (fun s scfk => processSelfCol store ti pkc pks scfk.1 s)
      (processSelfCol store ti pkc pks p.1 s)).error = s.error)
    rw [ih, processSelfCol_error_clean store ti pkc pks p.1 s hclean]

theorem selfRefPass_shape_clean (store : Store) (ti : TableInfo)
    (auto_pk : Option String) (st : St)
    (hclean : ∀ n, store.fails n = false) (herr : st.error = none) :
    ∃ Δ, (selfRefPass store ti auto_pk st).effects = st.effects ++ Δ
      ∧ (selfRefPass store ti auto_pk st).error = none
      ∧ (Δ = [] ∨ ∃ ups, Δ = ups ++ [Effect.commit]
        ∧ ∀ e ∈ ups, ∃ c pc rv pv, e = Effect.update ti.name c pc rv pv) := by
  unfold selfRefPass
  dsimp only
  rw [herr]
  simp only [Option.isSome_none, Bool.false_eq_true, if_false]
  split
  · split
    · rename_i pkc _
      obtain ⟨Δ, hΔ, hprop⟩ := selfCols_foldl_spec store ti pkc
        ((st.inserted_pks.lookup ti.name).getD [])
        ((get_foreign_keys ti).2) st
      have herrf : ((get_foreign_keys ti).2.foldl
          (fun s scfk => processSelfCol store ti pkc
            ((st.inserted_pks.lookup ti.name).getD []) scfk.1 s) st).error = none := by
        rw [selfCols_foldl_error_clean store ti pkc _ hclean, herr]
      rw [herrf]
      simp only [Option.isSome_none, Bool.false_eq_true, if_false]
      refine ⟨Δ ++ [Effect.commit], ?_, ?_, ?_⟩
      · rw [commitEff_effects, hΔ, List.append_assoc]
      · rw [show (commitEff _).error = _ from commitEff_error _, herrf]
      · refine Or.inr ⟨Δ, rfl, ?_⟩
        intro e he
        obtain ⟨c, rv, pv, heq, _, _⟩ := hprop e he
        exact ⟨c, pkc, rv, pv, heq⟩
    · exact ⟨[], by simp, herr, Or.inl rfl⟩
  · exact ⟨[], by simp, herr, Or.inl rfl⟩

theorem processOneRow_effects (f : Faker) (store : Store) (ti : TableInfo)
    (insertable : List Column) (maxAtt : Nat) (st : St) :
    (processOneRow f store ti insertable maxAtt st).effects = st.effects
    ∨ ∃ row, (processOneRow f store ti insertable maxAtt st).effects
        = st.effects ++ [Effect.insert ti.name row] := by
  obtain ⟨heff, _, _, _, _⟩ := genRowAttempts_frame f ti insertable maxAtt st
  unfold processOneRow
  dsimp only
  split
  · exact Or.inl rfl
  · split
    · exact Or.inl (by rw [heff])
    · by_cases hfb : store.fails (genRowAttempts f ti insertable maxAtt st).2.execCount
      · left
        repeat' split
        all_goals simp_all [execStmt]
      · right
        refine ⟨(genRowAttempts f ti insertable maxAtt st).1, ?_⟩
        repeat' split
        all_goals simp_all [execStmt]

theorem processRows_effects (f : Faker) (store : Store) (ti : TableInfo)
    (insertable : List Column) (maxAtt : Nat) :
    ∀ (n : Nat) (st : St),
      ∃ Δ, (processRows f store ti insertable maxAtt n st).effects = st.effects ++ Δ
        ∧ ∀ e ∈ Δ, ∃ row, e = Effect.insert ti.name row := by
  intro n
  induction n with
  | zero => intro st; exact ⟨[], by simp [processRows], by simp⟩
  | succ m ih =>
    intro st
    obtain ⟨Δ2, h2, hp2⟩ := ih (processOneRow f store ti insertable maxAtt st)
    rcases processOneRow_effects f store ti insertable maxAtt st with h1 | ⟨row, h1⟩
    · refine ⟨Δ2, ?_, hp2⟩
      show (processRows f store ti insertable maxAtt m _).effects = _
      rw [h2, h1]
    · refine ⟨[Effect.insert ti.name row] ++ Δ2, ?_, ?_⟩
      · show (processRows f store ti insertable maxAtt m _).effects = _
        rw [h2, h1, List.append_assoc]
      · intro e he
        rcases List.mem_append.mp he with hh | hh
        · rcases List.mem_singleton.mp hh with rfl
          exact ⟨row, rfl⟩
        · exact hp2 e hh

theorem processTable_error_id (f : Faker) (store : Store)
    (schema : List (String × Int)) (ti : TableInfo) (st : St)
    (h : st.error.isSome) : processTable f store schema ti st = st := by
  unfold processTable
  rw [if_pos h]

theorem seedStep_error_id (tables : List TableInfo) (f : Faker) (store : Store)
    (schema : List (String × Int)) (st : St) (tname : String)
    (h : st.error.isSome) : seedStep tables f store schema st tname = st := by
  unfold seedStep
  split
  · exact processTable_error_id f store schema _ st h
  · rfl

theorem foldl_seedStep_error_id (tables : List TableInfo) (f : Faker) (store : Store)
    (schema : List (String × Int)) :
    ∀ (tnames : List String) (st : St), st.error.isSome →
      tnames.foldl (seedStep tables f store schema) st = st := by
  intro tnames
  induction tnames with
  | nil => intro st _; rfl
  | cons t rest ih =>
    intro st h
    show (rest.foldl (seedStep tables f store schema)
      (seedStep tables f store schema st t)) = st
    rw [seedStep_error_id tables f store schema st t h, ih st h]

theorem selfRefPass_members (store : Store) (ti : TableInfo)
    (auto_pk : Option String) (st : St) :
    ∃ Δ, (selfRefPass store ti auto_pk st).effects = st.effects ++ Δ
      ∧ ∀ e ∈ Δ, (∃ c pc rv pv, e = Effect.update ti.name c pc rv pv)
        ∨ e = Effect.commit := by
  unfold selfRefPass
  dsimp only
  split
  · exact ⟨[], by simp, by simp⟩
  · split
    · split
      · rename_i pkc _
        obtain ⟨Δ, hΔ, hprop⟩ := selfCols_foldl_spec store ti pkc
          ((st.inserted_pks.lookup ti.name).getD [])
          ((get_foreign_keys ti).2) st
        have hupd : ∀ e ∈ Δ, (∃ c pc rv pv, e = Effect.update ti.name c pc rv pv)
            ∨ e = Effect.commit := by
          intro e he
          obtain ⟨c, rv, pv, heq, _, _⟩ := hprop e he
          exact Or.inl ⟨c, pkc, rv, pv, heq⟩
        split
        · exact ⟨Δ, hΔ, hupd⟩
        · refine ⟨Δ ++ [Effect.commit], ?_, ?_⟩
          · rw [commitEff_effects, hΔ, List.append_assoc]
          · intro e he
            rcases List.mem_append.mp he with hh | hh
            · exact hupd e hh
            · exact Or.inr (List.mem_singleton.mp hh)
      · exact ⟨[], by simp, by simp⟩
    · exact ⟨[], by simp, by simp⟩

theorem processTable_effects (f : Faker) (store : Store)
    (schema : List (String × Int)) (ti : TableInfo) (st : St) :
    ∃ Δ, (processTable f store schema ti st).effects = st.effects ++ Δ
      ∧ ∀ e ∈ Δ, (∃ row, e = Effect.insert ti.name row)
        ∨ (∃ c pc rv pv, e = Effect.update ti.name c pc rv pv)
        ∨ e = Effect.commit := by
  unfold processTable
  dsimp only
  generalize (if isComposite ti then (100 : Nat) else 1) = maxAtt
  split
  · exact ⟨[], by simp, by simp⟩
  · split
    · exact ⟨[], by simp, by simp⟩
    · obtain ⟨Δ1, h1, hp1⟩ := processRows_effects f store ti
        (insertableAndAuto ti).1 maxAtt ((schema.lookup ti.name).getD 0).toNat
        { st with
          inserted_pks := setA ti.name [] st.inserted_pks,
          used_unique_values := ti.unique_columns.map (fun c => (c, [])),
          used_pk_combinations := [],
          available_fk_pks := initPools ti (setA ti.name [] st.inserted_pks) }
      split
      · refine ⟨Δ1, h1, ?_⟩
        intro e he
        exact Or.inl (hp1 e he)
      · obtain ⟨Δsr, hsr, hmem⟩ := selfRefPass_members store ti
          (insertableAndAuto ti).2
          (commitEff (processRows f store ti (insertableAndAuto ti).1 maxAtt
            ((schema.lookup ti.name).getD 0).toNat
            { st with
              inserted_pks := setA ti.name [] st.inserted_pks,
              used_unique_values := ti.unique_columns.map (fun c => (c, [])),
              used_pk_combinations := [],
              available_fk_pks := initPools ti (setA ti.name [] st.inserted_pks) }))
        have hmems : ∀ e ∈ Δ1 ++ [Effect.commit] ++ Δsr,
            (∃ row, e = Effect.insert ti.name row)
            ∨ (∃ c pc rv pv, e = Effect.update ti.name c pc rv pv)
            ∨ e = Effect.commit := by
          intro e he
          rcases List.mem_append.mp he with hh | hh
          · rcases List.mem_append.mp hh with h3 | h3
            · exact Or.inl (hp1 e h3)
            · exact Or.inr (Or.inr (List.mem_singleton.mp h3))
          · rcases hmem e hh with h4 | h4
            · exact Or.inr (Or.inl h4)
            · exact Or.inr (Or.inr h4)
        split
        · refine ⟨Δ1 ++ [Effect.commit] ++ Δsr, ?_, hmems⟩
          rw [hsr, commitEff_effects, h1]
          simp
        · refine ⟨Δ1 ++ [Effect.commit] ++ Δsr, ?_, hmems⟩
          show (selfRefPass store ti (insertableAndAuto ti).2 _).effects = _
          rw [hsr, commitEff_effects, h1]
          simp

theorem runSeed_no_rollback (tables : List TableInfo) (schema : List (String × Int))
    (f : Faker) (store : Store) (rng : List Nat) :
    Effect.rollback ∉ (runSeed tables schema f store rng).effects := by
  unfold runSeed
  split
  · simp [initialSt]
  · have hstep : ∀ (tnames : List String) (st : St), Effect.rollback ∉ st.effects →
        Effect.rollback ∉ (tnames.foldl (seedStep tables f store schema) st).effects := by
      intro tnames
      induction tnames with
      | nil => exact fun st h => h
      | cons t rest ih =>
        intro st h
        apply ih
        unfold seedStep
        split
        · obtain ⟨Δ, hΔ, hmem⟩ := processTable_effects f store schema _ st
          rw [hΔ]
          intro hmm
          rcases List.mem_append.mp hmm with hh | hh
          · exact h hh
          · rcases hmem _ hh with ⟨row, heq⟩ | ⟨c, pc, rv, pv, heq⟩ | heq <;>
              simp at heq
        · exact h
    exact hstep _ _ (by simp [initialSt])

theorem processTable_shape_clean (f : Faker) (store : Store)
    (schema : List (String × Int)) (ti : TableInfo) (st : St)
    (hclean : ∀ n, store.fails n = false) (herr : st.error = none)
    (hrc : 0 < (schema.lookup ti.name).getD 0) :
    ∃ ins sr, (processTable f store schema ti st).effects
        = st.effects ++ ins ++ [Effect.commit] ++ sr
      ∧ (∀ e ∈ ins, ∃ row, e = Effect.insert ti.name row)
      ∧ (sr = [] ∨ ∃ ups, sr = ups ++ [Effect.commit]
          ∧ ∀ e ∈ ups, ∃ c pc rv pv, e = Effect.update ti.name c pc rv pv) := by
  rw [processTable_eq f store schema ti st herr hrc]
  dsimp only
  generalize (if isComposite ti then (100 : Nat) else 1) = maxAtt
  obtain ⟨Δ1, h1, hp1⟩ := processRows_effects f store ti
    (insertableAndAuto ti).1 maxAtt ((schema.lookup ti.name).getD 0).toNat
    { st with
      inserted_pks := setA ti.name [] st.inserted_pks,
      used_unique_values := ti.unique_columns.map (fun c => (c, [])),
      used_pk_combinations := [],
      available_fk_pks := initPools ti (setA ti.name [] st.inserted_pks) }
  have herr1 : (processRows f store ti (insertableAndAuto ti).1 maxAtt
      ((schema.lookup ti.name).getD 0).toNat
      { st with
        inserted_pks := setA ti.name [] st.inserted_pks,
        used_unique_values := ti.unique_columns.map (fun c => (c, [])),
        used_pk_combinations := [],
        available_fk_pks := initPools ti (setA ti.name [] st.inserted_pks) }).error
      = none := by
    rw [processRows_error_clean f store ti (insertableAndAuto ti).1 maxAtt hclean]
    exact herr
  rw [herr1]
  simp only [Option.isSome_none, Bool.false_eq_true, if_false]
  obtain ⟨Δsr, hsr, herr3, hshape⟩ := selfRefPass_shape_clean store ti
    (insertableAndAuto ti).2
    (commitEff (processRows f store ti (insertableAndAuto ti).1 maxAtt
      ((schema.lookup ti.name).getD 0).toNat
      { st with
        inserted_pks := setA ti.name [] st.inserted_pks,
        used_unique_values := ti.unique_columns.map (fun c => (c, [])),
        used_pk_combinations := [],
        available_fk_pks := initPools ti (setA ti.name [] st.inserted_pks) }))
    hclean (by rw [commitEff_error, herr1])
  rw [herr3]
  simp only [Option.isSome_none, Bool.false_eq_true, if_false]
  refine ⟨Δ1, Δsr, ?_, hp1, hshape⟩
  show (selfRefPass store ti (insertableAndAuto ti).2 _).effects = _
  rw [hsr, commitEff_effects, h1]

/-- C8: for every seeded table the insertion executor emits all of the
table's insert statements followed by exactly one commit — never a
commit per row — and the optional self-reference pass appends only
update statements followed by its own single commit; a store failure is
fatal: once the error flag is set, all remaining table processing is a
no-op; and the connection's rollback operation is never invoked, so
commits already performed for previously processed tables stand. -/
theorem C8_commit_per_table_and_fatal_failure :
    (∀ (f : Faker) (store : Store) (schema : List (String × Int))
        (ti : TableInfo) (st : St),
      (∀ n, store.fails n = false) → st.error = none →
      0 < (schema.lookup ti.name).getD 0 →
      ∃ ins sr, (processTable f store schema ti st).effects
          = st.effects ++ ins ++ [Effect.commit] ++ sr
        ∧ (∀ e ∈ ins, ∃ row, e = Effect.insert ti.name row)
        ∧ (sr = [] ∨ ∃ ups, sr = ups ++ [Effect.commit]
            ∧ ∀ e ∈ ups, ∃ c pc rv pv, e = Effect.update ti.name c pc rv pv))
    ∧ (∀ (tables : List TableInfo) (f : Faker) (store : Store)
        (schema : List (String × Int)) (tnames : List String) (st : St),
      st.error.isSome →
      tnames.foldl (seedStep tables f store schema) st = st)
    ∧ (∀ (tables : List TableInfo) (schema : List (String × Int)) (f : Faker)
        (store : Store) (rng : List Nat),
      Effect.rollback ∉ (runSeed tables schema f store rng).effects)
    ∧ (∀ (f : Faker) (store : Store) (schema : List (String × Int))
        (ti : TableInfo) (st : St),
      ∃ Δ, (processTable f store schema ti st).effects = st.effects ++ Δ) := by
  refine ⟨?_, ?_, ?_, ?_⟩
  · intro f store schema ti st hclean herr hrc
    exact processTable_shape_clean f store schema ti st hclean herr hrc
  · intro tables f store schema tnames st h
    exact foldl_seedStep_error_id tables f store schema tnames st h
  · intro tables schema f store rng
    exact runSeed_no_rollback tables schema f store rng
  · intro f store schema ti st
    obtain ⟨Δ, hΔ, _⟩ := processTable_effects f store schema ti st
    exact ⟨Δ, hΔ⟩

/-- Witness for C8 at a concrete input: seeding one row into `users`
with a never-failing store yields the insert effects followed by one
commit. -/
theorem C8_commit_per_table_and_fatal_failure_witness :
    ∃ ins sr, (processTable fakerDet cleanStore [("users", 1)] tiUsers
        (initialSt [])).effects
      = (initialSt []).effects ++ ins ++ [Effect.commit] ++ sr
      ∧ (∀ e ∈ ins, ∃ row, e = Effect.insert tiUsers.name row)
      ∧ (sr = [] ∨ ∃ ups, sr = ups ++ [Effect.commit]
          ∧ ∀ e ∈ ups, ∃ c pc rv pv, e = Effect.update tiUsers.name c pc rv pv) := by
  exact C8_commit_per_table_and_fatal_failure.1 fakerDet cleanStore [("users", 1)]
    tiUsers (initialSt []) (fun n => rfl) rfl (by decide)

/-! ## The dependency orderer (claim C3) -/

theorem foldl_insertSet_mem {α : Type} [DecidableEq α] :
    ∀ (l : List α) (acc : List α) (x : α),
      x ∈ l.foldl (fun a n => insertSet n a) acc ↔ x ∈ acc ∨ x ∈ l := by
  intro l
  induction l with
  | nil => intro acc x; simp
  | cons y ys ih =>
    intro acc x
    show x ∈ ys.foldl (fun a n => insertSet n a) (insertSet y acc) ↔ _
    rw [ih, insertSet_mem]
    constructor
    · rintro ((rfl | h) | h)
      · exact Or.inr (List.mem_cons_self _ _)
      · exact Or.inl h
      · exact Or.inr (List.mem_cons_of_mem _ h)
    · rintro (h | h)
      · exact Or.inl (Or.inr h)
      · rcases List.mem_cons.mp h with rfl | h
        · exact Or.inl (Or.inl rfl)
        · exact Or.inr h

theorem foldl_insertSet_nodup {α : Type} [DecidableEq α] :
    ∀ (l : List α) (acc : List α), acc.Nodup →
      (l.foldl (fun a n => insertSet n a) acc).Nodup := by
  intro l
  induction l with
  | nil => intro acc h; exact h
  | cons y ys ih =>
    intro acc h
    exact ih (insertSet y acc) (insertSet_nodup y acc h)

theorem graphNodes_nodup (g : List (String × List String)) :
    (graphNodes g).Nodup := by
  unfold graphNodes
  exact foldl_insertSet_nodup _ [] List.nodup_nil

theorem mem_graphNodes (g : List (String × List String)) (x : String) :
    x ∈ graphNodes g ↔ x ∈ g.map (·.1) ∨ x ∈ (g.map (·.2)).flatten := by
  unfold graphNodes
  rw [foldl_insertSet_mem]
  simp

theorem lookup_some_mem_pairs {α : Type} :
    ∀ (g : List (String × α)) (n : String) (d : α),
      g.lookup n = some d → (n, d) ∈ g := by
  intro g
  induction g with
  | nil => intro n d h; simp [List.lookup] at h
  | cons p rest ih =>
    intro n d h
    rcases p with ⟨pk, pv⟩
    by_cases hk : n = pk
    · subst hk
      rw [List.lookup_cons] at h
      simp at h
      subst h
      exact List.mem_cons_self _ _
    · rw [List.lookup_cons] at h
      have hb : (n == pk) = false := beq_false_of_ne hk
      rw [hb] at h
      exact List.mem_cons_of_mem _ (ih n d h)

theorem key_mem_graphNodes (g : List (String × List String)) (n : String)
    (d : List String) (h : g.lookup n = some d) : n ∈ graphNodes g := by
  rw [mem_graphNodes]
  left
  exact List.mem_map.mpr ⟨(n, d), lookup_some_mem_pairs g n d h, rfl⟩

theorem dep_mem_graphNodes (g : List (String × List String)) (n d : String)
    (h : d ∈ depsOf g n) : d ∈ graphNodes g := by
  unfold depsOf at h
  cases hl : g.lookup n with
  | none => rw [hl] at h; simp at h
  | some deps =>
    rw [hl] at h
    rw [mem_graphNodes]
    right
    rw [List.mem_flatten]
    exact ⟨deps, List.mem_map.mpr ⟨(n, deps), lookup_some_mem_pairs g n deps hl, rfl⟩, h⟩

theorem edge_node_mem_graphNodes (g : List (String × List String)) (n d : String)
    (h : d ∈ depsOf g n) : n ∈ graphNodes g := by
  unfold depsOf at h
  cases hl : g.lookup n with
  | none => rw [hl] at h; simp at h
  | some deps => exact key_mem_graphNodes g n deps hl

theorem mem_readyNodes (g : List (String × List String)) (done : List String)
    (x : String) :
    x ∈ readyNodes g done ↔
      x ∈ graphNodes g ∧ x ∉ done ∧ ∀ d ∈ depsOf g x, d ∈ done := by
  unfold readyNodes
  rw [List.mem_filter]
  simp

theorem readyNodes_nodup (g : List (String × List String)) (done : List String) :
    (readyNodes g done).Nodup := by
  unfold readyNodes
  exact List.Nodup.filter _ (graphNodes_nodup g)

theorem before_append (l l' : List String) (x y : String) (h : Before l x y) :
    Before (l ++ l') x y := by
  obtain ⟨i, j, hij, hx, hy⟩ := h
  have hjl : j < l.length := (List.getElem?_eq_some_iff.mp hy).1
  have hil : i < l.length := (List.getElem?_eq_some_iff.mp hx).1
  refine ⟨i, j, hij, ?_, ?_⟩
  · rw [List.getElem?_append_left hil]
    exact hx
  · rw [List.getElem?_append_left hjl]
    exact hy

theorem before_left_right (l l' : List String) (x y : String)
    (hx : x ∈ l) (hy : y ∈ l') : Before (l ++ l') x y := by
  obtain ⟨i, hi, hxi⟩ := List.getElem_of_mem hx
  obtain ⟨j, hj, hyj⟩ := List.getElem_of_mem hy
  refine ⟨i, l.length + j, by omega, ?_, ?_⟩
  · rw [List.getElem?_append_left hi]
    rw [List.getElem?_eq_getElem hi]
    exact congrArg some hxi
  · rw [List.getElem?_append_right (by omega)]
    have : l.length + j - l.length = j := by omega
    rw [this, List.getElem?_eq_getElem hj]
    exact congrArg some hyj

theorem nodup_getElem?_inj (l : List String) (hmod : l.Nodup) (i j : Nat)
    (y : String) (hi : l[i]? = some y) (hj : l[j]? = some y) : i = j := by
  obtain ⟨hi', hyi⟩ := List.getElem?_eq_some_iff.mp hi
  obtain ⟨hj', hyj⟩ := List.getElem?_eq_some_iff.mp hj
  exact (List.Nodup.getElem_inj_iff hmod).mp (hyi.trans hyj.symm)

theorem before_trans (l : List String) (hmod : l.Nodup) (x y z : String)
    (h1 : Before l x y) (h2 : Before l y z) : Before l x z := by
  obtain ⟨i, j, hij, hx, hy⟩ := h1
  obtain ⟨i', j', hij', hy', hz⟩ := h2
  have : j = i' := nodup_getElem?_inj l hmod j i' y hy hy'
  exact ⟨i, j', by omega, hx, hz⟩

theorem not_before_self (l : List String) (hmod : l.Nodup) (x : String) :
    ¬Before l x x := by
  rintro ⟨i, j, hij, hx, hx'⟩
  have := nodup_getElem?_inj l hmod i j x hx hx'
  omega

theorem topoInv_nil (g : List (String × List String)) : TopoInv g [] := by
  refine ⟨List.nodup_nil, ?_, ?_⟩ <;> intro a ha <;> simp at ha

theorem topoInv_append_ready (g : List (String × List String)) (acc : List String)
    (hinv : TopoInv g acc) : TopoInv g (acc ++ readyNodes g acc) := by
  obtain ⟨hnd, hmem, hord⟩ := hinv
  refine ⟨?_, ?_, ?_⟩
  · rw [List.nodup_append]
    refine ⟨hnd, readyNodes_nodup g acc, ?_⟩
    intro a ha hb
    exact ((mem_readyNodes g acc a).mp hb).2.1 ha
  · intro a ha
    rcases List.mem_append.mp ha with h | h
    · exact hmem a h
    · exact ((mem_readyNodes g acc a).mp h).1
  · intro a ha d hd
    rcases List.mem_append.mp ha with h | h
    · obtain ⟨hdin, hb⟩ := hord a h d hd
      exact ⟨List.mem_append_left _ hdin, before_append _ _ _ _ hb⟩
    · have hready := (mem_readyNodes g acc a).mp h
      have hdin : d ∈ acc := hready.2.2 d hd
      exact ⟨List.mem_append_left _ hdin, before_left_right _ _ _ _ hdin h⟩

theorem topoAux_zero (g : List (String × List String)) (acc : List String) :
    topoAux g 0 acc = if ∀ n ∈ graphNodes g, n ∈ acc then some acc else none := rfl

theorem topoAux_succ (g : List (String × List String)) (fuel : Nat)
    (acc : List String) :
    topoAux g (fuel + 1) acc =
      if ∀ n ∈ graphNodes g, n ∈ acc then some acc
      else if (readyNodes g acc).isEmpty then none
      else topoAux g fuel (acc ++ readyNodes g acc) := rfl

theorem topoAux_sound (g : List (String × List String)) :
    ∀ (fuel : Nat) (acc order : List String), TopoInv g acc →
      topoAux g fuel acc = some order →
      TopoInv g order ∧ ∀ n ∈ graphNodes g, n ∈ order := by
  intro fuel
  induction fuel with
  | zero =>
    intro acc order hinv h
    rw [topoAux_zero] at h
    split at h
    · rename_i hall
      cases h
      exact ⟨hinv, hall⟩
    · cases h
  | succ m ih =>
    intro acc order hinv h
    rw [topoAux_succ] at h
    split at h
    · rename_i hall
      cases h
      exact ⟨hinv, hall⟩
    · split at h
      · cases h
      · exact ih _ order (topoInv_append_ready g acc hinv) h

theorem topological_sort_sound (g : List (String × List String))
    (order : List String) (h : topological_sort g = some order) :
    order.Nodup ∧ (∀ n, n ∈ order ↔ n ∈ graphNodes g)
    ∧ (∀ a ∈ order, ∀ d ∈ depsOf g a, d ∈ order ∧ Before order d a) := by
  obtain ⟨⟨hnd, hmem, hord⟩, hall⟩ := topoAux_sound g _ [] order (topoInv_nil g) h
  exact ⟨hnd, fun n => ⟨hmem n, hall n⟩, hord⟩

theorem path_before (g : List (String × List String)) (order : List String)
    (h : topological_sort g = some order) :
    ∀ (a b : String), DepPath g a b → Before order b a := by
  obtain ⟨hnd, hiff, hord⟩ := topological_sort_sound g order h
  intro a b hp
  induction hp with
  | @single a' b' hd =>
    have ha : a' ∈ order := (hiff a').mpr (edge_node_mem_graphNodes g a' b' hd)
    exact (hord a' ha b' hd).2
  | @cons a' b' c' hd hp2 ihp =>
    have ha : a' ∈ order := (hiff a').mpr (edge_node_mem_graphNodes g a' b' hd)
    have h1 : Before order b' a' := (hord a' ha b' hd).2
    exact before_trans order hnd c' b' a' ihp h1

theorem cycle_topological_sort_none (g : List (String × List String))
    (hcyc : HasCycle g) : topological_sort g = none := by
  obtain ⟨n, hp⟩ := hcyc
  cases hres : topological_sort g with
  | none => rfl
  | some order =>
    have hb := path_before g order hres n n hp
    have hnd := (topological_sort_sound g order hres).1
    exact absurd hb (not_before_self order hnd n)

theorem ready_empty_cycle (g : List (String × List String)) (acc : List String)
    (hex : ∃ n, n ∈ graphNodes g ∧ n ∉ acc)
    (hempty : readyNodes g acc = []) : HasCycle g := by
  classical
  have hstep : ∀ n, n ∈ graphNodes g → n ∉ acc →
      ∃ d, d ∈ depsOf g n ∧ d ∈ graphNodes g ∧ d ∉ acc := by
    intro n hn hna
    by_contra hno
    push_neg at hno
    have hready : n ∈ readyNodes g acc := by
      rw [mem_readyNodes]
      refine ⟨hn, hna, ?_⟩
      intro d hd
      exact hno d hd (dep_mem_graphNodes g n d hd)
    rw [hempty] at hready
    simp at hready
  choose F hF1 hF2 hF3 using hstep
  obtain ⟨n₀, hn₀, hna₀⟩ := hex
  let step : {n : String // n ∈ graphNodes g ∧ n ∉ acc} →
      {n : String // n ∈ graphNodes g ∧ n ∉ acc} :=
    fun p => ⟨F p.1 p.2.1 p.2.2, hF2 p.1 p.2.1 p.2.2, hF3 p.1 p.2.1 p.2.2⟩
  let C : Nat → {n : String // n ∈ graphNodes g ∧ n ∉ acc} :=
    fun k => step^[k] ⟨n₀, hn₀, hna₀⟩
  have hCsucc : ∀ k, C (k + 1) = step (C k) := by
    intro k
    exact Function.iterate_succ_apply' step k _
  have hedge : ∀ k, (C (k + 1)).1 ∈ depsOf g (C k).1 := by
    intro k
    rw [hCsucc k]
    exact hF1 (C k).1 (C k).2.1 (C k).2.2
  have hpath : ∀ (k i : Nat), DepPath g (C i).1 (C (i + k + 1)).1 := by
    intro k
    induction k with
    | zero => intro i; exact DepPath.single (hedge i)
    | succ m ihm =>
      intro i
      have h2 := ihm (i + 1)
      have heq2 : i + 1 + m + 1 = i + (m + 1) + 1 := by omega
      rw [heq2] at h2
      exact DepPath.cons (hedge i) h2
  have hmaps : ∀ k ∈ Finset.range ((graphNodes g).length + 1),
      (C k).1 ∈ (graphNodes g).toFinset := by
    intro k _
    rw [List.mem_toFinset]
    exact (C k).2.1
  have hcard : ((graphNodes g).toFinset).card
      < (Finset.range ((graphNodes g).length + 1)).card := by
    rw [Finset.card_range]
    have := (graphNodes g).toFinset_card_le
    omega
  obtain ⟨i, hi, j, hj, hne, heq⟩ :=
    Finset.exists_ne_map_eq_of_card_lt_of_maps_to hcard hmaps
  rcases Nat.lt_or_ge i j with hlt | hge
  · have hp := hpath (j - i - 1) i
    have hidx : i + (j - i - 1) + 1 = j := by omega
    rw [hidx] at hp
    rw [← heq] at hp
    exact ⟨(C i).1, hp⟩
  · have hlt : j < i := by omega
    have hp := hpath (i - j - 1) j
    have hidx : j + (i - j - 1) + 1 = i := by omega
    rw [hidx] at hp
    rw [heq] at hp
    exact ⟨(C j).1, hp⟩

theorem topoAux_complete (g : List (String × List String)) (hnc : ¬HasCycle g) :
    ∀ (fuel : Nat) (acc : List String), acc.Nodup →
      (∀ a ∈ acc, a ∈ graphNodes g) →
      (graphNodes g).length ≤ fuel + acc.length →
      (topoAux g fuel acc).isSome := by
  intro fuel
  induction fuel with
  | zero =>
    intro acc hnd hsub hlen
    rw [topoAux_zero]
    split
    · simp
    · rename_i hall
      push_neg at hall
      obtain ⟨n, hn, hna⟩ := hall
      exfalso
      have hsubF : acc.toFinset ⊆ (graphNodes g).toFinset := by
        intro x hx
        exact List.mem_toFinset.mpr (hsub x (List.mem_toFinset.mp hx))
      have hcard1 : acc.toFinset.card = acc.length := List.toFinset_card_of_nodup hnd
      have hcard2 : (graphNodes g).toFinset.card = (graphNodes g).length :=
        List.toFinset_card_of_nodup (graphNodes_nodup g)
      have hEq : (graphNodes g).toFinset = acc.toFinset :=
        (Finset.eq_of_subset_of_card_le hsubF (by omega)).symm
      have : n ∈ acc.toFinset := by
        rw [← hEq]
        exact List.mem_toFinset.mpr hn
      exact hna (List.mem_toFinset.mp this)
  | succ m ih =>
    intro acc hnd hsub hlen
    rw [topoAux_succ]
    split
    · simp
    · rename_i hall
      push_neg at hall
      obtain ⟨n, hn, hna⟩ := hall
      split
      · rename_i hemp
        exact absurd (ready_empty_cycle g acc ⟨n, hn, hna⟩
          (List.isEmpty_iff.mp hemp)) hnc
      · rename_i hemp
        apply ih
        · rw [List.nodup_append]
          exact ⟨hnd, readyNodes_nodup g acc,
            fun a ha hb => ((mem_readyNodes g acc a).mp hb).2.1 ha⟩
        · intro a ha
          rcases List.mem_append.mp ha with h | h
          · exact hsub a h
          · exact ((mem_readyNodes g acc a).mp h).1
        · have hpos : 0 < (readyNodes g acc).length := by
            rcases Nat.eq_zero_or_pos (readyNodes g acc).length with h0 | h0
            · exact absurd (by simp [List.length_eq_zero.mp h0]) hemp
            · exact h0
          rw [List.length_append]
          omega

theorem topological_sort_complete (g : List (String × List String))
    (hnc : ¬HasCycle g) : (topological_sort g).isSome := by
  unfold topological_sort
  exact topoAux_complete g hnc _ [] List.nodup_nil (by simp) (by simp)

theorem self_not_mem_fold (tname : String) :
    ∀ (fks : List RawFK) (acc : List String), tname ∉ acc →
      tname ∉ fks.foldl
        (fun acc fk =>
          if fk.refTable ≠ "" ∧ fk.refTable ≠ tname then insertSet fk.refTable acc
          else acc) acc := by
  intro fks
  induction fks with
  | nil => intro acc h; exact h
  | cons fk rest ih =>
    intro acc h
    apply ih
    show tname ∉ (if fk.refTable ≠ "" ∧ fk.refTable ≠ tname
      then insertSet fk.refTable acc else acc)
    split
    · rename_i hcond
      rw [insertSet_mem]
      rintro (rfl | hmm)
      · exact hcond.2 rfl
      · exact h hmm
    · exact h

theorem build_graph_no_self (tables : List TableInfo) :
    ∀ p ∈ build_dependency_graph tables, p.1 ∉ p.2 := by
  intro p hp
  unfold build_dependency_graph at hp
  obtain ⟨t, ht, heq⟩ := List.mem_map.mp hp
  subst heq
  exact self_not_mem_fold t.name t.raw_fks [] (by simp)

theorem table_mem_graphNodes (tables : List TableInfo) (ti : TableInfo)
    (h : ti ∈ tables) :
    ti.name ∈ graphNodes (build_dependency_graph tables) := by
  rw [mem_graphNodes]
  left
  unfold build_dependency_graph
  rw [List.map_map]
  exact List.mem_map.mpr ⟨ti, h, rfl⟩

theorem runSeed_cyclic (tables : List TableInfo) (schema : List (String × Int))
    (f : Faker) (store : Store) (rng : List Nat)
    (hcyc : HasCycle (build_dependency_graph tables)) :
    runSeed tables schema f store rng
      = { initialSt rng with error := some SeedError.cyclic } := by
  unfold runSeed
  rw [cycle_topological_sort_none _ hcyc]

/-- C3: the dependency graph contains every declared table as a node
and excludes self-edges; when the orderer returns a sequence it
contains every node exactly once and lists, for every non-self
foreign-key edge A→B, the table B strictly before A; when the graph
has a cycle the orderer fails (graphlib's `CycleError`) — and only
then — and the seed run aborts with the cyclic error before emitting
any database effect. -/
theorem C3_dependency_orderer :
    (∀ (tables : List TableInfo), ∀ ti ∈ tables,
      ti.name ∈ graphNodes (build_dependency_graph tables))
    ∧ (∀ (tables : List TableInfo), ∀ p ∈ build_dependency_graph tables, p.1 ∉ p.2)
    ∧ (∀ (g : List (String × List String)) (order : List String),
      topological_sort g = some order →
      order.Nodup ∧ (∀ n, n ∈ order ↔ n ∈ graphNodes g)
      ∧ (∀ a ∈ order, ∀ d ∈ depsOf g a, d ∈ order ∧ Before order d a))
    ∧ (∀ g : List (String × List String), HasCycle g → topological_sort g = none)
    ∧ (∀ g : List (String × List String), ¬HasCycle g → (topological_sort g).isSome)
    ∧ (∀ (tables : List TableInfo) (schema : List (String × Int)) (f : Faker)
        (store : Store) (rng : List Nat),
      HasCycle (build_dependency_graph tables) →
      runSeed tables schema f store rng
        = { initialSt rng with error := some SeedError.cyclic }) := by
  exact ⟨fun tables ti h => table_mem_graphNodes tables ti h,
    build_graph_no_self,
    fun g order h => topological_sort_sound g order h,
    fun g h => cycle_topological_sort_none g h,
    fun g h => topological_sort_complete g h,
    fun tables schema f store rng h => runSeed_cyclic tables schema f store rng h⟩

/-- Witness for C3 at concrete inputs: table `a` referencing `b`
orders as `[b, a]` with the stated properties, and the two-table cycle
`x ↔ y` makes the orderer fail and the run abort with the cyclic error
and no effects. -/
theorem C3_dependency_orderer_witness :
    (["b", "a"].Nodup
      ∧ (∀ n, n ∈ ["b", "a"] ↔ n ∈ graphNodes (build_dependency_graph [tiA, tiB]))
      ∧ (∀ a ∈ ["b", "a"], ∀ d ∈ depsOf (build_dependency_graph [tiA, tiB]) a,
          d ∈ ["b", "a"] ∧ Before ["b", "a"] d a))
    ∧ topological_sort (build_dependency_graph [tiCycX, tiCycY]) = none
    ∧ runSeed [tiCycX, tiCycY] [("x", 1)] fakerDet cleanStore []
        = { initialSt [] with error := some SeedError.cyclic } := by
  have hcyc : HasCycle (build_dependency_graph [tiCycX, tiCycY]) := by
    refine ⟨"x", @DepPath.cons (build_dependency_graph [tiCycX, tiCycY]) "x" "y" "x"
      ?_ (DepPath.single ?_)⟩
    · decide
    · decide
  exact ⟨C3_dependency_orderer.2.2.1 (build_dependency_graph [tiA, tiB])
      ["b", "a"] (by decide),
    C3_dependency_orderer.2.2.2.1 _ hcyc,
    C3_dependency_orderer.2.2.2.2.2 [tiCycX, tiCycY] [("x", 1)] fakerDet
      cleanStore [] hcyc⟩
